import Mathlib

/-! The tapper DSL lexer and type-node model.

A shallow embedding of `tapper/dsl/scanner.go` (token kinds, the raw scan, the
peephole merger and the array-size decoder) and of `tapper/dsl/type_nodes.go`
(the type-node variants and their canonical rendering), followed by theorems
about them.

Conventions of the embedding:

* a Go call either returns or panics; `Outcome` records which, plus a third
  constructor for a loop model that was given too little fuel;
* a Go `([]Token, error)` result is a pair of options, `none` standing for `nil`;
* `int` is the 64-bit `int` of the usual targets (`maxInt = 2^63 - 1`);
* the `text/scanner` tokenizer of the standard library is not part of the
  repository: the raw scan is modelled over the sequence of units that
  tokenizer yields (code, text and the `Pos()` reported after each unit).
-/

namespace Dsl

/-! ## Results of Go calls -/

/-- The value carried by a Go panic raised in this package. -/
inductive PanicValue where
  /-- The value of `panic(err)` when `err` is nil. -/
  | nilValue
  /-- The value of `panic(err)` when `err` is the error returned by `strconv.Atoi`. -/
  | atoiError
  /-- The run-time panic of an out-of-range slice index. -/
  | indexOutOfRange
  deriving DecidableEq, Repr

/-- How a call ends: it returns a value, it panics, or (for a loop run with a
fuel bound) the bound was reached before the loop ended. -/
inductive Outcome (α : Type) where
  | returned (val : α)
  | panicked (v : PanicValue)
  | outOfFuel
  deriving DecidableEq, Repr

/-- Sequencing of calls: a panic (or exhausted fuel) of the first call is the
outcome of the whole. -/
def Outcome.bind {α β : Type} (x : Outcome α) (f : α → Outcome β) : Outcome β :=
  match x with
  | .returned a => f a
  | .panicked v => .panicked v
  | .outOfFuel => .outOfFuel

instance : Monad Outcome where
  pure := Outcome.returned
  bind := Outcome.bind

/-! ## Tokens -/

/-- The `TokenId` enumeration, in the order of the `iota` block. -/
inductive TokenId where
  | TokenInvalid
  | TokenEquals
  | TokenNotEquals
  | TokenGreaterThan
  | TokenGreaterOrEqualThan
  | TokenLessThan
  | TokenLessOrEqualThan
  | TokenAdd
  | TokenSubtract
  | TokenMultiply
  | TokenDivide
  | TokenExponent
  | TokenMod
  | TokenBitwiseOr
  | TokenBitwiseAnd
  | TokenLogicalAnd
  | TokenLogicalOr
  | TokenLeftParen
  | TokenRightParen
  | TokenLeftBracket
  | TokenRightBracket
  | TokenSymbol
  | TokenNumber
  | TokenTypeSlice
  | TokenTypeArray
  | TokenTypeMap
  deriving DecidableEq, Repr

open TokenId

/-- The `Token` struct. `Value` is an `interface{}` that the package only ever
leaves nil or sets to an `int`, hence an optional integer. -/
structure Token where
  Line : Int
  Column : Int
  Text : String
  Id : TokenId
  Value : Option Int := none
  deriving DecidableEq, Repr

/-- The function `convertId`: from the tokenizer's code of a unit to a token kind. -/
def convertId (r : Int) : TokenId :=
  if r = -2 then TokenSymbol
  else if r = -3 then TokenNumber
  else if r = 40 then TokenLeftParen
  else if r = 41 then TokenRightParen
  else if r = 42 then TokenMultiply
  else if r = 43 then TokenAdd
  else if r = 60 then TokenLessThan
  else if r = 62 then TokenGreaterThan
  else if r = 91 then TokenLeftBracket
  else if r = 93 then TokenRightBracket
  else if r = 124 then TokenBitwiseOr
  else TokenInvalid

/-! ## The array-size decoder -/

/-- Largest value of a Go `int` (64-bit target). -/
def maxInt : Int := 2 ^ 63 - 1

/-- Smallest value of a Go `int` (64-bit target). -/
def minInt : Int := -(2 ^ 63)

/-- Value of a decimal digit character. -/
def digitVal (c : Char) : Nat := c.toNat - 48

/-- The accumulation loop of `strconv.Atoi`: `n = n*10 + digit`, left to right. -/
def atoiDigits (ds : List Char) : Nat :=
  ds.foldl (fun n c => n * 10 + digitVal c) 0

/-- The library function `strconv.Atoi`: an optional sign followed by one or more
decimal digits, whose value fits in an `int`. `none` stands for a non-nil error
(the integer returned next to an error is not used by this package). -/
def Atoi (s : String) : Option Int :=
  let body : List Char :=
    match s.data with
    | c :: r => if c = '+' ∨ c = '-' then r else c :: r
    | [] => []
  let neg : Bool :=
    match s.data with
    | c :: _ => decide (c = '-')
    | [] => false
  if body = [] ∨ body.all Char.isDigit = false then none
  else
    let v : Int := if neg then -(atoiDigits body : Int) else (atoiDigits body : Int)
    if v < minInt ∨ maxInt < v then none else some v

/-- The compiled pattern `^\[(\d+)\]` applied to `s`: when `s` starts with a
`[`, one or more ASCII digits and a `]`, the digits (submatch 1); otherwise
`none`. Nothing is required of what follows the `]`. -/
def arrayTypeRegexp (s : List Char) : Option (List Char) :=
  match s with
  | c :: rest =>
    if c = '[' then
      match rest.takeWhile Char.isDigit, rest.dropWhile Char.isDigit with
      | _ :: _, c2 :: _ => if c2 = ']' then some (rest.takeWhile Char.isDigit) else none
      | _, _ => none
    else none
  | [] => none

/-- The function `matchArrayTypePrefix`. -/
def matchArrayTypePrefix (s : String) : Outcome (Bool × Int) :=
  match arrayTypeRegexp s.data with
  | none => .returned (false, -1)
  | some sub1 =>
    match Atoi (String.mk sub1) with
    | none => .panicked .atoiError
    | some siz => if siz < 1 then .panicked .nilValue else .returned (true, siz)

/-! ## The peephole merger -/

/-- Reading `tokens[i]`; an index out of range is a run-time panic. -/
def index (tokens : List Token) (i : Nat) : Outcome Token :=
  match tokens[i]? with
  | some t => .returned t
  | none => .panicked .indexOutOfRange

/-- The `if atLeastThreeLeft` block of one iteration of the loop of `peepholer`,
at cursor `i` with `result` built so far. `some (i2, result2)` is the state after
a `continue`; `none` means the block fell through. -/
def threeTokenBlock (tokens : List Token) (i : Nat) (result : List Token) :
    Outcome (Option (Nat × List Token)) := do
  let t0 ← index tokens i
  let t1 ← index tokens (i + 1)
  let t2 ← index tokens (i + 2)
  let s := t0.Text ++ t1.Text ++ t2.Text
  let (arrayMatch, arrayLen) ← matchArrayTypePrefix s
  if s = "[map]" then
    let t : Token := { Line := t0.Line, Column := t0.Column, Text := s, Id := TokenTypeMap }
    pure (some (i + 3, result ++ [t]))
  else if arrayMatch then
    let t : Token :=
      { Line := t0.Line, Column := t0.Column, Text := s, Id := TokenTypeArray,
        Value := some arrayLen }
    pure (some (i + 3, result ++ [t]))
  else
    pure none

/-- The `if atLeastTwoLeft` block of one iteration of the loop of `peepholer`. -/
def twoTokenBlock (tokens : List Token) (i : Nat) (result : List Token) :
    Outcome (Option (Nat × List Token)) := do
  let t0 ← index tokens i
  let t1 ← index tokens (i + 1)
  let s := t0.Text ++ t1.Text
  if s = "||" then
    let t : Token := { Line := t0.Line, Column := t0.Column, Text := s, Id := TokenLogicalOr }
    pure (some (i + 2, result ++ [t]))
  else if s = "&&" then
    let t : Token := { Line := t0.Line, Column := t0.Column, Text := s, Id := TokenLogicalAnd }
    pure (some (i + 2, result ++ [t]))
  else if s = "[]" then
    let t : Token := { Line := t0.Line, Column := t0.Column, Text := s, Id := TokenTypeSlice }
    pure (some (i + 2, result ++ [t]))
  else
    pure none

/-- One iteration of the loop of `peepholer`, entered with `i <= last`: the
cursor and the result after it. -/
def peepholerIteration (tokens : List Token) (last : Int) (i : Nat) (result : List Token) :
    Outcome (Nat × List Token) := do
  let atLeastTwoLeft : Bool := decide ((i : Int) ≤ last - 1)
  let atLeastThreeLeft : Bool := decide ((i : Int) ≤ last - 2)
  let three ← if atLeastThreeLeft then threeTokenBlock tokens i result else pure none
  match three with
  | some st => pure st
  | none =>
    let two ← if atLeastTwoLeft then twoTokenBlock tokens i result else pure none
    match two with
    | some st => pure st
    | none =>
      let t ← index tokens i
      pure (i + 1, result ++ [t])

/-- The loop `for i := 0; i <= last; i += 0` of `peepholer`, run for at most
`fuel` iterations from cursor `i`; it ends with `return result, nil`. -/
def peepholerLoop (tokens : List Token) (last : Int) :
    Nat → Nat → List Token → Outcome (Option (List Token) × Option String)
  | 0, i, result =>
    if (i : Int) ≤ last then .outOfFuel else .returned (some result, none)
  | fuel + 1, i, result =>
    if (i : Int) ≤ last then
      match peepholerIteration tokens last i result with
      | .returned (i2, result2) => peepholerLoop tokens last fuel (i2 + 0) result2
      | .panicked v => .panicked v
      | .outOfFuel => .outOfFuel
    else .returned (some result, none)

/-- The function `peepholer`. Every iteration moves the cursor forward, so
`len(tokens)` iterations are enough (`peepholer_eq`, `peepholer_ne_outOfFuel`). -/
def peepholer (tokens : List Token) : Outcome (Option (List Token) × Option String) :=
  peepholerLoop tokens ((tokens.length : Int) - 1) tokens.length 0 []

/-! ## The merger seen from the cursor

The loop of `peepholer` only reads the tokens from the cursor on. What follows
describes one iteration, and the whole loop, as functions of that remaining
suffix; `peepholerLoop_eq` and `peepholer_eq` prove that they agree with the
loop above. -/

/-- The three-token rules on the window `t0 t1 t2`: the merged token, if any. -/
def rule3 (t0 t1 t2 : Token) : Outcome (Option Token) :=
  (matchArrayTypePrefix (t0.Text ++ t1.Text ++ t2.Text)).bind fun r =>
    if t0.Text ++ t1.Text ++ t2.Text = "[map]" then
      .returned (some { Line := t0.Line, Column := t0.Column,
                        Text := t0.Text ++ t1.Text ++ t2.Text, Id := TokenTypeMap })
    else if r.1 then
      .returned (some { Line := t0.Line, Column := t0.Column,
                        Text := t0.Text ++ t1.Text ++ t2.Text, Id := TokenTypeArray,
                        Value := some r.2 })
    else .returned none

/-- The two-token rules on the window `t0 t1`: the merged token, if any. -/
def rule2 (t0 t1 : Token) : Option Token :=
  if t0.Text ++ t1.Text = "||" then
    some { Line := t0.Line, Column := t0.Column, Text := t0.Text ++ t1.Text,
           Id := TokenLogicalOr }
  else if t0.Text ++ t1.Text = "&&" then
    some { Line := t0.Line, Column := t0.Column, Text := t0.Text ++ t1.Text,
           Id := TokenLogicalAnd }
  else if t0.Text ++ t1.Text = "[]" then
    some { Line := t0.Line, Column := t0.Column, Text := t0.Text ++ t1.Text,
           Id := TokenTypeSlice }
  else none

/-- The token pushed by the iteration whose cursor is at `t0`, with `rest` after
it, and the number of tokens that iteration consumes. -/
def headStep (t0 : Token) : List Token → Outcome (Token × Nat)
  | t1 :: t2 :: _ =>
    (rule3 t0 t1 t2).bind fun o =>
      match o with
      | some t => .returned (t, 3)
      | none =>
        match rule2 t0 t1 with
        | some t => .returned (t, 2)
        | none => .returned (t0, 1)
  | [t1] =>
    match rule2 t0 t1 with
    | some t => .returned (t, 2)
    | none => .returned (t0, 1)
  | [] => .returned (t0, 1)

/-- The tokens pushed by the loop from a cursor with `ts` remaining. -/
def mergeFrom : List Token → Outcome (List Token)
  | [] => .returned []
  | t0 :: rest =>
    match headStep t0 rest with
    | .returned (t, k) =>
      match mergeFrom (rest.drop (k - 1)) with
      | .returned out => .returned (t :: out)
      | .panicked v => .panicked v
      | .outOfFuel => .outOfFuel
    | .panicked v => .panicked v
    | .outOfFuel => .outOfFuel
termination_by ts => ts.length
decreasing_by
  simp only [List.length_drop, List.length_cons]
  omega

/-! ## Reference notions used in the statements -/

/-- The base-10 value of a string of decimal digits, by position: the first
digit weighs `10 ^ (number of digits after it)`. -/
def decimalValue : List Char → Nat
  | [] => 0
  | c :: ds => (c.toNat - '0'.toNat) * 10 ^ ds.length + decimalValue ds

/-- The closed translation table of the raw scanner, as the specification lists
it: the tokenizer's identifier and integer-literal codes and nine characters,
each with its token kind. -/
def idTable : List (Int × TokenId) :=
  [(-2, TokenSymbol), (-3, TokenNumber),
   (('('.toNat : Int), TokenLeftParen), ((')'.toNat : Int), TokenRightParen),
   (('*'.toNat : Int), TokenMultiply), (('+'.toNat : Int), TokenAdd),
   (('<'.toNat : Int), TokenLessThan), (('>'.toNat : Int), TokenGreaterThan),
   (('['.toNat : Int), TokenLeftBracket), ((']'.toNat : Int), TokenRightBracket),
   (('|'.toNat : Int), TokenBitwiseOr)]

/-! ## The raw scan -/

/-- One unit yielded by the `text/scanner` tokenizer: the code returned by
`sx.Scan()`, the text returned by `sx.TokenText()`, and the line and column of
`sx.Pos()` read after that call. -/
structure RawUnit where
  code : Int
  text : String
  posLine : Int
  posColumn : Int
  deriving DecidableEq, Repr

/-- The constant `scanner.EOF`, returned by `sx.Scan()` at the end of the input. -/
def EOF : Int := -1

/-- The error value `fmt.Errorf("Unknown token type %v (%s)", tok, sx.TokenText())`,
as its message. -/
def unknownTokenError (tok : Int) (text : String) : String :=
  "Unknown token type " ++ toString tok ++ " (" ++ text ++ ")"

/-- The loop of `Scanner.scan` over the units still to come (`sx.Scan()` yields
them in order and `EOF` once they are exhausted), with `tokens` built so far. -/
def scanLoop : List RawUnit → List Token → Outcome (Option (List Token) × Option String)
  | [], tokens => .returned (some tokens, none)
  | u :: rest, tokens =>
    let tok := u.code
    if tok = EOF then .returned (some tokens, none)
    else
      let id := convertId tok
      if id = TokenInvalid then .returned (none, some (unknownTokenError tok u.text))
      else
        let token : Token :=
          { Line := u.posLine, Column := u.posColumn, Text := u.text, Id := id }
        scanLoop rest (tokens ++ [token])

/-- The method `Scanner.scan`, over the units the tokenizer yields for the input. -/
def scan (sx : List RawUnit) : Outcome (Option (List Token) × Option String) :=
  scanLoop sx []

/-- The method `Scanner.Scan`: the raw scan followed by the peephole merger. -/
def Scan (sx : List RawUnit) : Outcome (Option (List Token) × Option String) := do
  let (tokens, err) ← scan sx
  if err ≠ none then
    pure (none, err)
  else
    let (tokens2, err2) ← peepholer (tokens.getD [])
    if err2 ≠ none then
      pure (none, err2)
    else
      pure (tokens2, none)

/-! ## Type nodes -/

/-- The variants implementing the `TypeNode` interface. The `Fields` map of a
struct is given as its entries in the order in which `range` visits them. -/
inductive TypeNode where
  | TypeNodeName (Name : String)
  | TypeNodeMap (KeyType : TypeNode) (ValueType : TypeNode)
  | TypeNodeStruct (Fields : List (String × TypeNode))
  | TypeNodeField (Name : String) (Node : TypeNode)
  | TypeNodeArray (ElemType : TypeNode) (Size : Int)
  | TypeNodeSlice (ElemType : TypeNode)
  | TypeNodeInt
  | TypeNodeFloat
  | TypeNodeBool
  | TypeNodeString

/-- The loop of `TypeNodeStruct.String` over the keys of `Fields`, from `s`. -/
def structKeys : List String → String → String
  | [], s => s
  | k :: ks, s => structKeys ks ((if s ≠ "" then s ++ ", " else s) ++ k)

/-- The `String` methods of the type nodes (`%v` of a node calls its `String`). -/
def TypeNode.String : TypeNode → String
  | .TypeNodeName name => name
  | .TypeNodeMap k v => "MAP[" ++ k.String ++ "]" ++ v.String
  | .TypeNodeStruct fields => "STRUCT(" ++ structKeys (fields.map Prod.fst) "" ++ ")"
  | .TypeNodeField name node => "FIELD(" ++ name ++ "," ++ node.String ++ ")"
  | .TypeNodeArray elemType size => "ARRAY(" ++ toString size ++ ", " ++ elemType.String ++ ")"
  | .TypeNodeSlice elemType => "SLICE(" ++ elemType.String ++ ")"
  | .TypeNodeInt => "INT"
  | .TypeNodeFloat => "FLOAT"
  | .TypeNodeBool => "BOOL"
  | .TypeNodeString => "STRING"

/-! ## Notions used in the statements and proofs about the merger -/

/-- A character that identifiers and integer literals are made of: an ASCII
letter or digit, an underscore, or a character outside ASCII (where the Unicode
letters and digits are). -/
def wordChar (c : Char) : Bool :=
  c.isAlphanum || c == '_' || decide (128 ≤ c.toNat)

/-- The shape of the text of a token of the raw scanner: one of the nine mapped
punctuation characters, or a non-empty word (an identifier or an integer
literal). -/
def isPrimitiveText (s : String) : Bool :=
  decide (s ∈ ["(", ")", "*", "+", "<", ">", "[", "]", "|"]) ||
    (!s.data.isEmpty && s.data.all wordChar)

/-- A text that begins with `[`, one or more decimal digits and `]`. -/
def ArrayText (x : List Char) : Prop :=
  ∃ d r, d ≠ [] ∧ (∀ c ∈ d, c.isDigit = true) ∧ x = '[' :: (d ++ ']' :: r)

/-- A three-token text on which one of the three-token cases is taken. -/
def Fires3 (s : String) : Prop := s = "[map]" ∨ ArrayText s.data

/-- A two-token text on which one of the two-token cases is taken. -/
def Fires2 (s : String) : Prop := s = "||" ∨ s = "&&" ∨ s = "[]"

/-- No rule applies at a cursor holding `t0` with `rest` after it. -/
def Quiet (t0 : Token) (rest : List Token) : Prop :=
  (∀ t1 r, rest = t1 :: r → ¬ Fires2 (t0.Text ++ t1.Text)) ∧
  (∀ t1 t2 r, rest = t1 :: t2 :: r → ¬ Fires3 (t0.Text ++ t1.Text ++ t2.Text))

/-- A token as the merger synthesizes it. -/
def Synth (t : Token) : Prop :=
  (t.Text = "[map]" ∧ t.Id = TokenTypeMap ∧ t.Value = none) ∨
  (ArrayText t.Text.data ∧ t.Id = TokenTypeArray ∧ ∃ n : Int, t.Value = some n ∧ 1 ≤ n) ∨
  (t.Text = "||" ∧ t.Id = TokenLogicalOr ∧ t.Value = none) ∨
  (t.Text = "&&" ∧ t.Id = TokenLogicalAnd ∧ t.Value = none) ∨
  (t.Text = "[]" ∧ t.Id = TokenTypeSlice ∧ t.Value = none)

/-- A text of at least two characters that begins with `[`, `|` or `&`. -/
def MergedText (x : List Char) : Prop :=
  ∃ c1 c2 r, x = c1 :: c2 :: r ∧ (c1 = '[' ∨ c1 = '|' ∨ c1 = '&')

/-- A non-empty text without `&` in which `[`, `]` and `|` only occur alone. -/
def Atomic (x : List Char) : Prop :=
  x ≠ [] ∧ ∀ c ∈ x, (c = '[' ∨ c = ']' ∨ c = '|' ∨ c = '&') → x = [c] ∧ c ≠ '&'

/-- The cursor of the loop of `peepholer` on `tokens` takes the value `i`, with
`result` pushed so far: states reached from `i = 0`, `result = []` by
iterations that are entered (`i <= last`) and run to their end. -/
inductive CursorReaches (tokens : List Token) : Nat → List Token → Prop where
  | start : CursorReaches tokens 0 []
  | step {i i2 : Nat} {result result2 : List Token} :
      CursorReaches tokens i result →
      (i : Int) ≤ (tokens.length : Int) - 1 →
      peepholerIteration tokens ((tokens.length : Int) - 1) i result = .returned (i2, result2) →
      CursorReaches tokens i2 result2

/-- The window `w` of input tokens stands behind the output token `o`: it has
one, two or three tokens and `o` carries the line and column of its first. -/
def WindowOf (w : List Token) (o : Token) : Prop :=
  (w.length = 1 ∨ w.length = 2 ∨ w.length = 3) ∧
    ∃ first tail, w = first :: tail ∧ o.Line = first.Line ∧ o.Column = first.Column

/-- No token of kind `TokenTypeArray` has two or more tokens after it. -/
def noArrayBeforeLastTwo : List Token → Bool
  | [] => true
  | a :: post =>
    (decide (a.Id ≠ TokenTypeArray) || decide (post.length < 2)) && noArrayBeforeLastTwo post

/-! ## Notions used in the statements about type nodes and positions -/

/-- The ten variants of a type node. -/
inductive Variant where
  | name
  | map
  | struct
  | field
  | array
  | slice
  | int
  | float
  | bool
  | string
  deriving DecidableEq, Repr

/-- The variant of a type node. -/
def TypeNode.variant : TypeNode → Variant
  | .TypeNodeName _ => .name
  | .TypeNodeMap _ _ => .map
  | .TypeNodeStruct _ => .struct
  | .TypeNodeField _ _ => .field
  | .TypeNodeArray _ _ => .array
  | .TypeNodeSlice _ => .slice
  | .TypeNodeInt => .int
  | .TypeNodeFloat => .float
  | .TypeNodeBool => .bool
  | .TypeNodeString => .string

/-- The first four characters (three for `INT`) of the rendering of a node of
the given variant; a name has no fixed beginning. -/
def Variant.lead : Variant → List Char
  | .name => []
  | .map => ['M', 'A', 'P', '[']
  | .struct => ['S', 'T', 'R', 'U']
  | .field => ['F', 'I', 'E', 'L']
  | .array => ['A', 'R', 'R', 'A']
  | .slice => ['S', 'L', 'I', 'C']
  | .int => ['I', 'N', 'T']
  | .float => ['F', 'L', 'O', 'A']
  | .bool => ['B', 'O', 'O', 'L']
  | .string => ['S', 'T', 'R', 'I']

/-- The rendering of a struct as the specification words it: the field names
joined by a comma and a blank, between `STRUCT(` and `)`. -/
def structReference (names : List String) : String :=
  "STRUCT(" ++ ", ".intercalate names ++ ")"

/-- The unit that the `text/scanner` tokenizer yields for a token with the given
code and text that starts at `line`, `column` and holds no line break. By the
documentation of that package, `Pos()` is the position of the character
immediately after the token: the same line, and the column of the token's
start plus its number of characters. -/
def unitStartingAt (code : Int) (text : String) (line column : Int) : RawUnit :=
  { code := code, text := text, posLine := line, posColumn := column + (text.length : Int) }

/-! ## Notions used in the statements about texts, lengths and rule order -/

/-- The texts of the tokens, concatenated in order. -/
def concatText : List Token → String
  | [] => ""
  | t :: ts => t.Text ++ concatText ts

/-- The result of a call, with the token `t` put in front of the tokens it returns. -/
def prependToken (t : Token) (o : Outcome (Option (List Token) × Option String)) :
    Outcome (Option (List Token) × Option String) :=
  o.bind fun r => .returned (r.1.map fun out => t :: out, r.2)

/-- What the tokenizer guarantees about the text of a unit: an identifier or an
integer literal (codes -2 and -3) is a non-empty word, and a unit whose code is
a character has that character as its text. -/
def unitTextOk (u : RawUnit) : Bool :=
  if u.code = -2 ∨ u.code = -3 then !u.text.data.isEmpty && u.text.data.all wordChar
  else if 0 ≤ u.code then decide (u.text.data = [Char.ofNat u.code.toNat])
  else true

/-- A text that is exactly a `[`, one or more decimal digits and a `]`. -/
def isExactArrayText (s : String) : Bool :=
  match s.data with
  | c :: rest =>
    c == '[' && !rest.dropLast.isEmpty && rest.dropLast.all Char.isDigit
      && rest.getLast? == some ']'
  | [] => false

/-- One iteration of the loop of `peepholer` with the two window checks tried in
the other order: the two-token block first, then the three-token block. -/
def peepholerIterationTwoFirst (tokens : List Token) (last : Int) (i : Nat)
    (result : List Token) : Outcome (Nat × List Token) := do
  let atLeastTwoLeft : Bool := decide ((i : Int) ≤ last - 1)
  let atLeastThreeLeft : Bool := decide ((i : Int) ≤ last - 2)
  let two ← if atLeastTwoLeft then twoTokenBlock tokens i result else pure none
  match two with
  | some st => pure st
  | none =>
    let three ← if atLeastThreeLeft then threeTokenBlock tokens i result else pure none
    match three with
    | some st => pure st
    | none =>
      let t ← index tokens i
      pure (i + 1, result ++ [t])

/-- The loop of `peepholer` over `peepholerIterationTwoFirst`. -/
def peepholerLoopTwoFirst (tokens : List Token) (last : Int) :
    Nat → Nat → List Token → Outcome (Option (List Token) × Option String)
  | 0, i, result =>
    if (i : Int) ≤ last then .outOfFuel else .returned (some result, none)
  | fuel + 1, i, result =>
    if (i : Int) ≤ last then
      match peepholerIterationTwoFirst tokens last i result with
      | .returned (i2, result2) => peepholerLoopTwoFirst tokens last fuel (i2 + 0) result2
      | .panicked v => .panicked v
      | .outOfFuel => .outOfFuel
    else .returned (some result, none)

/-- The function `peepholer` with the two window checks tried in the other order. -/
def peepholerTwoFirst (tokens : List Token) : Outcome (Option (List Token) × Option String) :=
  peepholerLoopTwoFirst tokens ((tokens.length : Int) - 1) tokens.length 0 []

/-- The iterations of the loop of `peepholer` on `tokens`, from cursor `i` to
the end of the loop: `ws` lists, in order, the tokens each iteration consumes
(those from its cursor up to the next cursor) and `out` the token each
iteration pushes. -/
inductive LoopWindows (tokens : List Token) : Nat → List (List Token) → List Token → Prop where
  | done {i : Nat} :
      ¬ ((i : Int) ≤ (tokens.length : Int) - 1) → LoopWindows tokens i [] []
  | step {i i2 : Nat} {o : Token} {ws : List (List Token)} {out : List Token} :
      (i : Int) ≤ (tokens.length : Int) - 1 →
      (∀ result : List Token,
        peepholerIteration tokens ((tokens.length : Int) - 1) i result
          = .returned (i2, result ++ [o])) →
      LoopWindows tokens i2 ws out →
      LoopWindows tokens i (((tokens.drop i).take (i2 - i)) :: ws) (o :: out)

/-! ## Basic facts -/

section Basic

variable {α β : Type}

@[simp] theorem Outcome.returned_bind (a : α) (f : α → Outcome β) :
    (Outcome.returned a >>= f) = f a := rfl

@[simp] theorem Outcome.panicked_bind (v : PanicValue) (f : α → Outcome β) :
    ((Outcome.panicked v : Outcome α) >>= f) = Outcome.panicked v := rfl

@[simp] theorem Outcome.outOfFuel_bind (f : α → Outcome β) :
    ((Outcome.outOfFuel : Outcome α) >>= f) = Outcome.outOfFuel := rfl

@[simp] theorem Outcome.pure_eq (a : α) : (pure a : Outcome α) = Outcome.returned a := rfl

@[simp] theorem Outcome.bind_returned (a : α) (f : α → Outcome β) :
    (Outcome.returned a).bind f = f a := rfl

@[simp] theorem Outcome.bind_panicked (v : PanicValue) (f : α → Outcome β) :
    (Outcome.panicked v : Outcome α).bind f = Outcome.panicked v := rfl

@[simp] theorem Outcome.bind_outOfFuel (f : α → Outcome β) :
    (Outcome.outOfFuel : Outcome α).bind f = Outcome.outOfFuel := rfl

end Basic

/-! ## The loop agrees with its list view -/

theorem getElem?_of_drop {tokens : List Token} {i : Nat} {suffix : List Token}
    (h : tokens.drop i = suffix) (j : Nat) : tokens[i + j]? = suffix[j]? := by
  rw [← h, List.getElem?_drop]

theorem length_of_drop {tokens : List Token} {i : Nat} {t0 : Token} {rest : List Token}
    (h : tokens.drop i = t0 :: rest) : tokens.length = i + (rest.length + 1) := by
  have h1 := congrArg List.length h
  simp only [List.length_drop, List.length_cons] at h1
  omega

/-- One iteration of the loop, in terms of the tokens from the cursor on. -/
theorem peepholerIteration_eq (tokens : List Token) (i : Nat) (result : List Token)
    (t0 : Token) (rest : List Token) (h : tokens.drop i = t0 :: rest) :
    peepholerIteration tokens ((tokens.length : Int) - 1) i result
      = (headStep t0 rest).bind fun p => .returned (i + p.2, result ++ [p.1]) := by
  have hlen := length_of_drop h
  have h0 : tokens[i]? = some t0 := by simpa using getElem?_of_drop h 0
  have h1 : tokens[i + 1]? = rest[0]? := by simpa using getElem?_of_drop h 1
  have h2 : tokens[i + 2]? = rest[1]? := by simpa using getElem?_of_drop h 2
  match rest, hlen, h1, h2 with
  | [], hlen, h1, h2 =>
    have e2 : ¬ ((i : Int) ≤ (tokens.length : Int) - 1 - 1) := by
      simp only [List.length_nil] at hlen; omega
    have e3 : ¬ ((i : Int) ≤ (tokens.length : Int) - 1 - 2) := by
      simp only [List.length_nil] at hlen; omega
    simp [peepholerIteration, index, headStep, e2, e3, h0]
  | [t1], hlen, h1, h2 =>
    have e2 : (i : Int) ≤ (tokens.length : Int) - 1 - 1 := by
      simp only [List.length_cons, List.length_nil] at hlen; omega
    have e3 : ¬ ((i : Int) ≤ (tokens.length : Int) - 1 - 2) := by
      simp only [List.length_cons, List.length_nil] at hlen; omega
    simp only [List.getElem?_cons_zero] at h1
    simp only [peepholerIteration, twoTokenBlock, index, headStep, rule2, e2, e3, h0, h1,
      decide_True, decide_False, Outcome.returned_bind, Outcome.pure_eq, if_true, if_false,
      Bool.false_eq_true]
    split_ifs <;> simp
  | t1 :: t2 :: rest2, hlen, h1, h2 =>
    have e2 : (i : Int) ≤ (tokens.length : Int) - 1 - 1 := by
      simp only [List.length_cons] at hlen; omega
    have e3 : (i : Int) ≤ (tokens.length : Int) - 1 - 2 := by
      simp only [List.length_cons] at hlen; omega
    simp only [List.getElem?_cons_zero] at h1
    simp only [List.getElem?_cons_succ, List.getElem?_cons_zero] at h2
    simp only [peepholerIteration, threeTokenBlock, twoTokenBlock, index, headStep, rule3, rule2,
      e2, e3, h0, h1, h2, decide_True, Outcome.returned_bind, Outcome.pure_eq, if_true]
    cases hm : matchArrayTypePrefix (t0.Text ++ t1.Text ++ t2.Text) with
    | returned r =>
      obtain ⟨m, n⟩ := r
      simp only [Outcome.returned_bind, Outcome.bind_returned, Outcome.pure_eq]
      split_ifs <;> simp
    | panicked v => simp
    | outOfFuel => simp

theorem mergeFrom_nil : mergeFrom [] = .returned [] := by
  rw [mergeFrom]

theorem mergeFrom_cons (t0 : Token) (rest : List Token) :
    mergeFrom (t0 :: rest)
      = (headStep t0 rest).bind fun p =>
          (mergeFrom (rest.drop (p.2 - 1))).bind fun out => .returned (p.1 :: out) := by
  rw [mergeFrom]
  cases headStep t0 rest with
  | returned p =>
    obtain ⟨t, k⟩ := p
    simp only [Outcome.bind_returned]
    cases mergeFrom (List.drop (k - 1) rest) <;> rfl
  | panicked v => rfl
  | outOfFuel => rfl

/-- An iteration consumes one, two or three tokens, and never more than remain. -/
theorem headStep_consumed {t0 : Token} {rest : List Token} {t : Token} {k : Nat}
    (h : headStep t0 rest = .returned (t, k)) :
    (k = 1 ∨ k = 2 ∨ k = 3) ∧ k ≤ rest.length + 1 := by
  match rest, h with
  | [], h =>
    simp only [headStep, Outcome.returned.injEq, Prod.mk.injEq] at h
    simp [← h.2]
  | [t1], h =>
    simp only [headStep] at h
    cases h2 : rule2 t0 t1 with
    | none => rw [h2] at h; simp only [Outcome.returned.injEq, Prod.mk.injEq] at h; simp [← h.2]
    | some u => rw [h2] at h; simp only [Outcome.returned.injEq, Prod.mk.injEq] at h; simp [← h.2]
  | t1 :: t2 :: rest2, h =>
    simp only [headStep] at h
    cases h3 : rule3 t0 t1 t2 with
    | returned o =>
      rw [h3] at h
      cases o with
      | some u =>
        simp only [Outcome.bind_returned, Outcome.returned.injEq, Prod.mk.injEq] at h
        simp [← h.2]
      | none =>
        simp only [Outcome.bind_returned] at h
        cases h2 : rule2 t0 t1 with
        | none =>
          rw [h2] at h; simp only [Outcome.returned.injEq, Prod.mk.injEq] at h; simp [← h.2]
        | some u =>
          rw [h2] at h; simp only [Outcome.returned.injEq, Prod.mk.injEq] at h; simp [← h.2]
    | panicked v => rw [h3] at h; simp at h
    | outOfFuel => rw [h3] at h; simp at h

/-- The loop from cursor `i`, with enough fuel, pushes `mergeFrom` of the tokens
from `i` on, and returns a nil error. -/
theorem peepholerLoop_eq (tokens : List Token) :
    ∀ (fuel i : Nat) (result : List Token), tokens.length - i ≤ fuel →
      peepholerLoop tokens ((tokens.length : Int) - 1) fuel i result
        = (mergeFrom (tokens.drop i)).bind fun out => .returned (some (result ++ out), none) := by
  intro fuel
  induction fuel with
  | zero =>
    intro i result hf
    have hi : tokens.length ≤ i := by omega
    have hg : ¬ ((i : Int) ≤ (tokens.length : Int) - 1) := by omega
    simp [peepholerLoop, hg, List.drop_eq_nil_of_le hi, mergeFrom_nil]
  | succ fuel ih =>
    intro i result hf
    by_cases hi : i < tokens.length
    · have hg : (i : Int) ≤ (tokens.length : Int) - 1 := by omega
      have hd : tokens.drop i = tokens[i] :: tokens.drop (i + 1) := List.drop_eq_getElem_cons hi
      rw [peepholerLoop, if_pos hg, peepholerIteration_eq tokens i result _ _ hd, hd,
        mergeFrom_cons]
      cases hs : headStep tokens[i] (tokens.drop (i + 1)) with
      | returned p =>
        obtain ⟨t, k⟩ := p
        have hk := (headStep_consumed hs).1
        have hdd : List.drop (k - 1) (List.drop (i + 1) tokens) = List.drop (i + k) tokens := by
          rw [List.drop_drop]; congr 1; omega
        simp only [Outcome.bind_returned, Nat.add_zero, hdd]
        rw [ih (i + k) (result ++ [t]) (by omega)]
        cases mergeFrom (List.drop (i + k) tokens) <;> simp
      | panicked v => simp
      | outOfFuel => simp
    · have hi2 : tokens.length ≤ i := by omega
      have hg : ¬ ((i : Int) ≤ (tokens.length : Int) - 1) := by omega
      simp [peepholerLoop, hg, List.drop_eq_nil_of_le hi2, mergeFrom_nil]

/-- The function `peepholer` returns the tokens of `mergeFrom` and a nil error. -/
theorem peepholer_eq (tokens : List Token) :
    peepholer tokens = (mergeFrom tokens).bind fun out => .returned (some out, none) := by
  have h := peepholerLoop_eq tokens tokens.length 0 [] (by omega)
  simpa [peepholer] using h

/-! ## The array-size decoder -/

theorem atoiDigits_foldl (ds : List Char) :
    ∀ acc : Nat, ds.foldl (fun n c => n * 10 + digitVal c) acc
      = acc * 10 ^ ds.length + decimalValue ds := by
  induction ds with
  | nil => intro acc; simp [decimalValue]
  | cons c ds ih =>
    intro acc
    have h48 : '0'.toNat = 48 := by decide
    rw [List.foldl_cons, ih]
    simp only [decimalValue, List.length_cons, digitVal, h48]
    ring

theorem atoiDigits_eq (ds : List Char) : atoiDigits ds = decimalValue ds := by
  simp [atoiDigits, atoiDigits_foldl]

theorem not_sign_of_isDigit {c : Char} (h : c.isDigit = true) : c ≠ '+' ∧ c ≠ '-' := by
  constructor <;> (intro hc; rw [hc] at h; exact absurd h (by decide))

/-- What `strconv.Atoi` returns on a non-empty string of digits. -/
theorem Atoi_digits (d : List Char) (hne : d ≠ []) (hd : ∀ c ∈ d, c.isDigit = true) :
    Atoi (String.mk d)
      = if (decimalValue d : Int) ≤ maxInt then some (decimalValue d : Int) else none := by
  match d, hne, hd with
  | c :: r, _, hd =>
    have hc := not_sign_of_isDigit (hd c (List.mem_cons_self _ _))
    have hall : (c :: r).all Char.isDigit = true := List.all_eq_true.mpr hd
    have hmin : ¬ ((atoiDigits (c :: r) : Int) < minInt) := by
      have : (0 : Int) ≤ (atoiDigits (c :: r) : Int) := Int.ofNat_nonneg _
      have hm : minInt < 0 := by decide
      omega
    simp only [Atoi, hc.1, hc.2, or_self, if_false, decide_False, hall, Bool.true_eq_false,
      Bool.false_eq_true, reduceCtorEq, hmin, false_or, atoiDigits_eq] at hmin ⊢
    by_cases hle : (decimalValue (c :: r) : Int) ≤ maxInt
    · simp [hle, not_lt.mpr hle, not_lt.mp hmin]
    · simp [hle, not_le.mp hle]

/-- The pattern matches a `[`, a non-empty run of digits and a `]`, whatever follows. -/
theorem arrayTypeRegexp_of_digits (d rest : List Char) (hne : d ≠ [])
    (hd : ∀ c ∈ d, c.isDigit = true) :
    arrayTypeRegexp ('[' :: (d ++ ']' :: rest)) = some d := by
  have hb : (']' : Char).isDigit = false := by decide
  have ht : (d ++ ']' :: rest).takeWhile Char.isDigit = d := by
    rw [List.takeWhile_append_of_pos hd, List.takeWhile_cons_of_neg (by simp [hb])]
    simp
  have hdr : (d ++ ']' :: rest).dropWhile Char.isDigit = ']' :: rest := by
    rw [List.dropWhile_append_of_pos hd, List.dropWhile_cons_of_neg (by simp [hb])]
  match d, hne, ht, hdr with
  | c :: r, _, ht, hdr =>
    simp only [List.cons_append] at ht hdr
    simp [arrayTypeRegexp, ht, hdr]

/-- The decoder on a text that starts with `[`, digits, `]`. -/
theorem matchArrayTypePrefix_of_digits (s : String) (d rest : List Char) (hne : d ≠ [])
    (hd : ∀ c ∈ d, c.isDigit = true) (hs : s.data = '[' :: (d ++ ']' :: rest)) :
    matchArrayTypePrefix s
      = if maxInt < (decimalValue d : Int) then .panicked .atoiError
        else if decimalValue d = 0 then .panicked .nilValue
        else .returned (true, (decimalValue d : Int)) := by
  simp only [matchArrayTypePrefix, hs, arrayTypeRegexp_of_digits d rest hne hd,
    Atoi_digits d hne hd]
  by_cases hle : (decimalValue d : Int) ≤ maxInt
  · simp only [hle, if_true, not_lt.mpr hle, if_false]
    by_cases h0 : decimalValue d = 0
    · simp [h0]
    · have : ¬ ((decimalValue d : Int) < 1) := by omega
      simp [h0, this]
  · simp [hle, not_le.mp hle]

theorem takeWhile_digits (d r : List Char) (hd : ∀ c ∈ d, c.isDigit = true) :
    (d ++ ']' :: r).takeWhile Char.isDigit = d := by
  have hb : (']' : Char).isDigit = false := by decide
  rw [List.takeWhile_append_of_pos hd, List.takeWhile_cons_of_neg (by simp [hb])]
  simp

theorem dropWhile_digits (d r : List Char) (hd : ∀ c ∈ d, c.isDigit = true) :
    (d ++ ']' :: r).dropWhile Char.isDigit = ']' :: r := by
  have hb : (']' : Char).isDigit = false := by decide
  rw [List.dropWhile_append_of_pos hd, List.dropWhile_cons_of_neg (by simp [hb])]

/-- When the pattern matches, the text is an array text and submatch 1 its digits. -/
theorem arrayTypeRegexp_some {x d : List Char} (h : arrayTypeRegexp x = some d) :
    d ≠ [] ∧ (∀ c ∈ d, c.isDigit = true) ∧ ∃ r, x = '[' :: (d ++ ']' :: r) := by
  match x, h with
  | c :: rest, h =>
    simp only [arrayTypeRegexp] at h
    by_cases hc : c = '['
    · simp only [hc, if_true] at h
      have hsplit := List.takeWhile_append_dropWhile Char.isDigit rest
      cases htw : rest.takeWhile Char.isDigit with
      | nil => rw [htw] at h; simp at h
      | cons t0 tw =>
        cases hdw : rest.dropWhile Char.isDigit with
        | nil => rw [htw, hdw] at h; simp at h
        | cons c2 dw =>
          rw [htw, hdw] at h
          simp only at h
          by_cases hc2 : c2 = ']'
          · simp only [hc2, if_true, Option.some.injEq] at h
            refine ⟨by rw [← h]; simp, ?_, dw, ?_⟩
            · intro ch hch
              rw [← h, ← htw] at hch
              exact List.mem_takeWhile_imp hch
            · rw [hc, ← h, ← hc2, ← htw, ← hdw, hsplit]
          · simp [hc2] at h
    · simp [hc] at h

theorem arrayTypeRegexp_eq_none {x : List Char} (h : ¬ ArrayText x) :
    arrayTypeRegexp x = none := by
  cases hr : arrayTypeRegexp x with
  | none => rfl
  | some d =>
    obtain ⟨h1, h2, r, h3⟩ := arrayTypeRegexp_some hr
    exact absurd ⟨d, r, h1, h2, h3⟩ h

theorem matchArrayTypePrefix_of_not {s : String} (h : ¬ ArrayText s.data) :
    matchArrayTypePrefix s = .returned (false, -1) := by
  simp [matchArrayTypePrefix, arrayTypeRegexp_eq_none h]

/-- What the decoder returns, when it returns. -/
theorem matchArrayTypePrefix_returned {s : String} {m : Bool} {n : Int}
    (h : matchArrayTypePrefix s = .returned (m, n)) :
    (m = false ∧ ¬ ArrayText s.data) ∨ (m = true ∧ ArrayText s.data ∧ 1 ≤ n) := by
  by_cases ha : ArrayText s.data
  · right
    obtain ⟨d, r, hne, hd, hs⟩ := ha
    rw [matchArrayTypePrefix_of_digits s d r hne hd hs] at h
    split_ifs at h with h1 h2
    simp only [Outcome.returned.injEq, Prod.mk.injEq] at h
    refine ⟨h.1.symm, ⟨d, r, hne, hd, hs⟩, ?_⟩
    rw [← h.2]
    omega
  · left
    rw [matchArrayTypePrefix_of_not ha] at h
    simp only [Outcome.returned.injEq, Prod.mk.injEq] at h
    exact ⟨h.1.symm, ha⟩

theorem not_arrayText_map : ¬ ArrayText "[map]".data := by
  rintro ⟨d, r, hne, hd, hs⟩
  match d, hne, hd, hs with
  | c :: d2, _, hd, hs =>
    have hc : c = 'm' := by
      have := (List.cons.inj hs).2
      exact ((List.cons.inj this).1).symm
    have := hd c (List.mem_cons_self _ _)
    rw [hc] at this
    exact absurd this (by decide)

/-! ## The rules -/

theorem rule3_of_not_fires {a b c : Token} (h : ¬ Fires3 (a.Text ++ b.Text ++ c.Text)) :
    rule3 a b c = .returned none := by
  have h1 : a.Text ++ b.Text ++ c.Text ≠ "[map]" := fun e => h (Or.inl e)
  have h2 : ¬ ArrayText (a.Text ++ b.Text ++ c.Text).data := fun e => h (Or.inr e)
  simp [rule3, matchArrayTypePrefix_of_not h2, h1]

theorem rule3_returned {a b c : Token} {o : Option Token}
    (h : rule3 a b c = .returned o) :
    (o = none ∧ ¬ Fires3 (a.Text ++ b.Text ++ c.Text)) ∨
    (∃ t, o = some t ∧ Synth t ∧ t.Line = a.Line ∧ t.Column = a.Column ∧
      t.Text = a.Text ++ b.Text ++ c.Text) := by
  simp only [rule3] at h
  cases hm : matchArrayTypePrefix (a.Text ++ b.Text ++ c.Text) with
  | returned r =>
    obtain ⟨m, n⟩ := r
    rw [hm] at h
    simp only [Outcome.bind_returned] at h
    by_cases e : a.Text ++ b.Text ++ c.Text = "[map]"
    · simp only [e, if_true, Outcome.returned.injEq] at h
      right
      exact ⟨_, h.symm, Or.inl ⟨rfl, rfl, rfl⟩, rfl, rfl, e.symm⟩
    · simp only [e, if_false] at h
      rcases matchArrayTypePrefix_returned hm with ⟨hf, hna⟩ | ⟨ht, ha, hn⟩
      · simp only [hf, Bool.false_eq_true, if_false, Outcome.returned.injEq] at h
        left
        refine ⟨h.symm, ?_⟩
        rintro (h1 | h1)
        · exact e h1
        · exact hna h1
      · simp only [ht, if_true, Outcome.returned.injEq] at h
        right
        exact ⟨_, h.symm, Or.inr (Or.inl ⟨ha, rfl, n, rfl, hn⟩), rfl, rfl, rfl⟩
  | panicked v => rw [hm] at h; simp at h
  | outOfFuel => rw [hm] at h; simp at h

theorem rule2_of_not_fires {a b : Token} (h : ¬ Fires2 (a.Text ++ b.Text)) :
    rule2 a b = none := by
  simp only [Fires2, not_or] at h
  simp [rule2, h.1, h.2.1, h.2.2]

theorem rule2_cases (a b : Token) :
    (rule2 a b = none ∧ ¬ Fires2 (a.Text ++ b.Text)) ∨
    (∃ t, rule2 a b = some t ∧ Synth t ∧ t.Line = a.Line ∧ t.Column = a.Column ∧
      t.Text = a.Text ++ b.Text) := by
  by_cases e1 : a.Text ++ b.Text = "||"
  · right
    refine ⟨{ Line := a.Line, Column := a.Column, Text := a.Text ++ b.Text,
              Id := TokenLogicalOr }, by simp [rule2, e1], ?_, rfl, rfl, rfl⟩
    exact Or.inr (Or.inr (Or.inl ⟨e1, rfl, rfl⟩))
  · by_cases e2 : a.Text ++ b.Text = "&&"
    · right
      refine ⟨{ Line := a.Line, Column := a.Column, Text := a.Text ++ b.Text,
                Id := TokenLogicalAnd }, by simp [rule2, e2], ?_, rfl, rfl, rfl⟩
      exact Or.inr (Or.inr (Or.inr (Or.inl ⟨e2, rfl, rfl⟩)))
    · by_cases e3 : a.Text ++ b.Text = "[]"
      · right
        refine ⟨{ Line := a.Line, Column := a.Column, Text := a.Text ++ b.Text,
                  Id := TokenTypeSlice }, by simp [rule2, e3], ?_, rfl, rfl, rfl⟩
        exact Or.inr (Or.inr (Or.inr (Or.inr ⟨e3, rfl, rfl⟩)))
      · left
        have hn : ¬ Fires2 (a.Text ++ b.Text) := by
          simp [Fires2, e1, e2, e3]
        exact ⟨rule2_of_not_fires hn, hn⟩

/-! ## One iteration and the whole loop, by cases -/

theorem headStep_of_quiet {t0 : Token} {rest : List Token} (h : Quiet t0 rest) :
    headStep t0 rest = .returned (t0, 1) := by
  match rest, h with
  | [], _ => rfl
  | [t1], h =>
    simp [headStep, rule2_of_not_fires (h.1 t1 [] rfl)]
  | t1 :: t2 :: r, h =>
    simp [headStep, rule2_of_not_fires (h.1 t1 (t2 :: r) rfl),
      rule3_of_not_fires (h.2 t1 t2 r rfl)]

/-- An iteration that returns either pushes the token at the cursor unchanged,
no rule applying there, or pushes a synthesized token at that token's position. -/
theorem headStep_inv {t0 : Token} {rest : List Token} {t : Token} {k : Nat}
    (h : headStep t0 rest = .returned (t, k)) :
    (k = 1 ∧ t = t0 ∧ Quiet t0 rest) ∨
    ((k = 2 ∨ k = 3) ∧ Synth t ∧ t.Line = t0.Line ∧ t.Column = t0.Column) := by
  match rest, h with
  | [], h =>
    simp only [headStep, Outcome.returned.injEq, Prod.mk.injEq] at h
    exact Or.inl ⟨h.2.symm, h.1.symm, by simp [Quiet]⟩
  | [t1], h =>
    simp only [headStep] at h
    rcases rule2_cases t0 t1 with ⟨h2, hq⟩ | ⟨u, h2, hs, hl, hc, _⟩
    · rw [h2] at h
      simp only [Outcome.returned.injEq, Prod.mk.injEq] at h
      refine Or.inl ⟨h.2.symm, h.1.symm, ?_, ?_⟩
      · intro t1' r e
        simp only [List.cons.injEq] at e
        rw [← e.1]; exact hq
      · intro t1' t2' r e
        simp at e
    · rw [h2] at h
      simp only [Outcome.returned.injEq, Prod.mk.injEq] at h
      rw [← h.1]
      exact Or.inr ⟨Or.inl h.2.symm, hs, hl, hc⟩
  | t1 :: t2 :: r, h =>
    simp only [headStep] at h
    cases h3 : rule3 t0 t1 t2 with
    | returned o =>
      rw [h3] at h
      simp only [Outcome.bind_returned] at h
      rcases rule3_returned h3 with ⟨ho, hq3⟩ | ⟨u, ho, hs, hl, hc, _⟩
      · rw [ho] at h
        simp only at h
        rcases rule2_cases t0 t1 with ⟨h2, hq⟩ | ⟨u, h2, hs, hl, hc, _⟩
        · rw [h2] at h
          simp only [Outcome.returned.injEq, Prod.mk.injEq] at h
          refine Or.inl ⟨h.2.symm, h.1.symm, ?_, ?_⟩
          · intro t1' r' e
            simp only [List.cons.injEq] at e
            rw [← e.1]; exact hq
          · intro t1' t2' r' e
            simp only [List.cons.injEq] at e
            rw [← e.1, ← e.2.1]; exact hq3
        · rw [h2] at h
          simp only [Outcome.returned.injEq, Prod.mk.injEq] at h
          rw [← h.1]
          exact Or.inr ⟨Or.inl h.2.symm, hs, hl, hc⟩
      · rw [ho] at h
        simp only [Outcome.returned.injEq, Prod.mk.injEq] at h
        rw [← h.1]
        exact Or.inr ⟨Or.inr h.2.symm, hs, hl, hc⟩
    | panicked v => rw [h3] at h; simp at h
    | outOfFuel => rw [h3] at h; simp at h

theorem mergeFrom_cons_returned {t0 : Token} {rest out : List Token}
    (h : mergeFrom (t0 :: rest) = .returned out) :
    ∃ t k out2, headStep t0 rest = .returned (t, k) ∧
      mergeFrom (rest.drop (k - 1)) = .returned out2 ∧ out = t :: out2 := by
  rw [mergeFrom_cons] at h
  cases hs : headStep t0 rest with
  | returned p =>
    obtain ⟨t, k⟩ := p
    rw [hs] at h
    simp only [Outcome.bind_returned] at h
    cases hm : mergeFrom (rest.drop (k - 1)) with
    | returned out2 =>
      rw [hm] at h
      simp only [Outcome.bind_returned, Outcome.returned.injEq] at h
      exact ⟨t, k, out2, rfl, hm, h.symm⟩
    | panicked v => rw [hm] at h; simp at h
    | outOfFuel => rw [hm] at h; simp at h
  | panicked v => rw [hs] at h; simp at h
  | outOfFuel => rw [hs] at h; simp at h

theorem mergeFrom_returned_nil {ts : List Token} (h : mergeFrom ts = .returned []) : ts = [] := by
  match ts, h with
  | [], _ => rfl
  | t0 :: rest, h =>
    obtain ⟨t, k, out2, _, _, e⟩ := mergeFrom_cons_returned h
    simp at e

/-- The first token pushed is the first input token, unchanged because no rule
applies there, or it is a synthesized token. -/
theorem mergeFrom_head {ts : List Token} {b : Token} {out2 : List Token}
    (h : mergeFrom ts = .returned (b :: out2)) :
    ∃ t1 rest1, ts = t1 :: rest1 ∧
      ((b = t1 ∧ Quiet t1 rest1 ∧ mergeFrom rest1 = .returned out2) ∨ Synth b) := by
  match ts, h with
  | [], h => rw [mergeFrom_nil] at h; simp at h
  | t1 :: rest1, h =>
    refine ⟨t1, rest1, rfl, ?_⟩
    obtain ⟨t, k, o2, hs, hm, e⟩ := mergeFrom_cons_returned h
    simp only [List.cons.injEq] at e
    rcases headStep_inv hs with ⟨hk, ht, hq⟩ | ⟨_, hsy, _, _⟩
    · left
      rw [hk] at hm
      simp only [Nat.sub_self, List.drop_zero] at hm
      exact ⟨e.1.trans ht, hq, by rw [e.2]; exact hm⟩
    · right
      rw [e.1]; exact hsy

/-- Every token pushed is an input token or a synthesized token. -/
theorem mergeFrom_origin :
    ∀ (n : Nat) (ts out : List Token), ts.length ≤ n → mergeFrom ts = .returned out →
      ∀ t ∈ out, t ∈ ts ∨ Synth t := by
  intro n
  induction n with
  | zero =>
    intro ts out hn h t ht
    have : ts = [] := List.length_eq_zero.mp (by omega)
    rw [this, mergeFrom_nil] at h
    simp only [Outcome.returned.injEq] at h
    rw [← h] at ht
    simp at ht
  | succ n ih =>
    intro ts out hn h t ht
    match ts, hn, h with
    | [], _, h =>
      rw [mergeFrom_nil] at h
      simp only [Outcome.returned.injEq] at h
      rw [← h] at ht
      simp at ht
    | t0 :: rest, hn, h =>
      obtain ⟨u, k, out2, hs, hm, e⟩ := mergeFrom_cons_returned h
      rw [e] at ht
      rcases List.mem_cons.mp ht with hu | hin
      · rcases headStep_inv hs with ⟨_, hu0, _⟩ | ⟨_, hsy, _, _⟩
        · left; rw [hu, hu0]; exact List.mem_cons_self _ _
        · right; rw [hu]; exact hsy
      · have hlen : (rest.drop (k - 1)).length ≤ n := by
          simp only [List.length_drop, List.length_cons] at hn ⊢
          omega
        rcases ih _ _ hlen hm t hin with hmem | hsy
        · left
          exact List.mem_cons_of_mem _ (List.mem_of_mem_drop hmem)
        · right; exact hsy

/-! ## The fuel given to the loop is enough -/

theorem matchArrayTypePrefix_ne_outOfFuel (s : String) :
    matchArrayTypePrefix s ≠ .outOfFuel := by
  unfold matchArrayTypePrefix
  split
  · simp
  · split
    · simp
    · split_ifs <;> simp

theorem rule3_ne_outOfFuel (a b c : Token) : rule3 a b c ≠ .outOfFuel := by
  unfold rule3
  cases hm : matchArrayTypePrefix (a.Text ++ b.Text ++ c.Text) with
  | returned r =>
    simp only [Outcome.bind_returned]
    split_ifs <;> simp
  | panicked v => simp
  | outOfFuel => exact absurd hm (matchArrayTypePrefix_ne_outOfFuel _)

theorem headStep_ne_outOfFuel (t0 : Token) (rest : List Token) :
    headStep t0 rest ≠ .outOfFuel := by
  match rest with
  | [] => simp [headStep]
  | [t1] =>
    simp only [headStep]
    cases rule2 t0 t1 <;> simp
  | t1 :: t2 :: r =>
    simp only [headStep]
    cases h3 : rule3 t0 t1 t2 with
    | returned o =>
      simp only [Outcome.bind_returned]
      cases o with
      | some u => simp
      | none => cases rule2 t0 t1 <;> simp
    | panicked v => simp
    | outOfFuel => exact absurd h3 (rule3_ne_outOfFuel _ _ _)

theorem mergeFrom_ne_outOfFuel :
    ∀ (n : Nat) (ts : List Token), ts.length ≤ n → mergeFrom ts ≠ .outOfFuel := by
  intro n
  induction n with
  | zero =>
    intro ts hn
    have : ts = [] := List.length_eq_zero.mp (by omega)
    rw [this, mergeFrom_nil]; simp
  | succ n ih =>
    intro ts hn
    match ts, hn with
    | [], _ => rw [mergeFrom_nil]; simp
    | t0 :: rest, hn =>
      rw [mergeFrom_cons]
      cases hs : headStep t0 rest with
      | returned p =>
        simp only [Outcome.bind_returned]
        have hlen : (rest.drop (p.2 - 1)).length ≤ n := by
          simp only [List.length_drop, List.length_cons] at hn ⊢
          omega
        cases hm : mergeFrom (rest.drop (p.2 - 1)) with
        | returned o => simp
        | panicked v => simp
        | outOfFuel => exact absurd hm (ih _ hlen)
      | panicked v => simp
      | outOfFuel => exact absurd hs (headStep_ne_outOfFuel _ _)

/-- The loop of `peepholer` always ends within the fuel it is given: the call
returns or panics. -/
theorem peepholer_ne_outOfFuel (tokens : List Token) : peepholer tokens ≠ .outOfFuel := by
  rw [peepholer_eq]
  cases hm : mergeFrom tokens with
  | returned o => simp
  | panicked v => simp
  | outOfFuel => exact absurd hm (mergeFrom_ne_outOfFuel _ _ (Nat.le_refl _))

/-! ## Single windows -/

theorem peepholer_three_of_rule3 {t0 t1 t2 t : Token}
    (h : rule3 t0 t1 t2 = .returned (some t)) :
    peepholer [t0, t1, t2] = .returned (some [t], none) := by
  simp [peepholer_eq, mergeFrom_cons, headStep, h, mergeFrom_nil]

/-- C4. Three tokens whose texts concatenate to exactly `[map]` are merged by
`peepholer` into a single token of kind `TokenTypeMap`, with text `[map]`, no
value, and the line and column of the first of the three. -/
theorem peepholer_map_prefix (t0 t1 t2 : Token)
    (h : t0.Text ++ t1.Text ++ t2.Text = "[map]") :
    peepholer [t0, t1, t2]
      = .returned (some [{ Line := t0.Line, Column := t0.Column, Text := "[map]",
                           Id := TokenTypeMap, Value := none }], none) := by
  apply peepholer_three_of_rule3
  have hm : matchArrayTypePrefix "[map]" = .returned (false, -1) := by decide
  simp [rule3, h, hm]

theorem peepholer_map_prefix_witness :
    peepholer [⟨1, 1, "[", TokenLeftBracket, none⟩, ⟨1, 2, "map", TokenSymbol, none⟩,
        ⟨1, 5, "]", TokenRightBracket, none⟩]
      = .returned (some [⟨1, 1, "[map]", TokenTypeMap, none⟩], none) :=
  peepholer_map_prefix ⟨1, 1, "[", TokenLeftBracket, none⟩ ⟨1, 2, "map", TokenSymbol, none⟩
    ⟨1, 5, "]", TokenRightBracket, none⟩ (by decide)

theorem peepholer_two_of_rule2 {a b t : Token} (h : rule2 a b = some t) :
    peepholer [a, b] = .returned (some [t], none) := by
  simp [peepholer_eq, mergeFrom_cons, headStep, h, mergeFrom_nil]

/-- C5. A sequence of exactly two tokens whose texts concatenate to `||`, `&&`
or `[]` is merged by `peepholer` into a single token of kind `TokenLogicalOr`,
`TokenLogicalAnd` or `TokenTypeSlice` respectively, whose text is the
concatenation, whose value is absent, and whose line and column are those of
the first token. -/
theorem peepholer_two_token_merges (a b : Token) :
    (a.Text ++ b.Text = "||" →
      peepholer [a, b]
        = .returned (some [{ Line := a.Line, Column := a.Column, Text := "||",
                             Id := TokenLogicalOr, Value := none }], none)) ∧
    (a.Text ++ b.Text = "&&" →
      peepholer [a, b]
        = .returned (some [{ Line := a.Line, Column := a.Column, Text := "&&",
                             Id := TokenLogicalAnd, Value := none }], none)) ∧
    (a.Text ++ b.Text = "[]" →
      peepholer [a, b]
        = .returned (some [{ Line := a.Line, Column := a.Column, Text := "[]",
                             Id := TokenTypeSlice, Value := none }], none)) := by
  refine ⟨fun h => ?_, fun h => ?_, fun h => ?_⟩ <;>
    apply peepholer_two_of_rule2 <;> simp [rule2, h]

theorem peepholer_two_token_merges_witness :
    peepholer [⟨1, 1, "|", TokenBitwiseOr, none⟩, ⟨1, 2, "|", TokenBitwiseOr, none⟩]
      = .returned (some [⟨1, 1, "||", TokenLogicalOr, none⟩], none) :=
  (peepholer_two_token_merges ⟨1, 1, "|", TokenBitwiseOr, none⟩
    ⟨1, 2, "|", TokenBitwiseOr, none⟩).1 (by decide)

/-- C2. For every non-empty string `d` of decimal digits whose base-10 value
`n` satisfies `1 <= n <= maxInt`, `peepholer` applied to three tokens with texts
`[`, `d`, `]` returns exactly one token, of kind `TokenTypeArray`, with text
`"[" + d + "]"`, value `n`, and the line and column of the `[` token. -/
theorem peepholer_array_size (d : String) (t0 t1 t2 : Token)
    (hne : d.data ≠ []) (hd : ∀ c ∈ d.data, c.isDigit = true)
    (h1 : 1 ≤ decimalValue d.data) (hmax : (decimalValue d.data : Int) ≤ maxInt)
    (e0 : t0.Text = "[") (e1 : t1.Text = d) (e2 : t2.Text = "]") :
    peepholer [t0, t1, t2]
      = .returned (some [{ Line := t0.Line, Column := t0.Column, Text := "[" ++ d ++ "]",
                           Id := TokenTypeArray,
                           Value := some (decimalValue d.data : Int) }], none) := by
  apply peepholer_three_of_rule3
  have hs : ("[" ++ d ++ "]").data = '[' :: (d.data ++ ']' :: []) := by
    simp [String.data_append]
  have hm := matchArrayTypePrefix_of_digits _ d.data [] hne hd hs
  have hnm : "[" ++ d ++ "]" ≠ "[map]" := by
    intro h
    have hdata := congrArg String.data h
    rw [hs] at hdata
    match hdd : d.data, hne with
    | c :: r, _ =>
      rw [hdd] at hdata
      have hc : c = 'm' := by
        have := List.cons.inj hdata
        simpa using (List.cons.inj this.2).1
      have := hd c (by rw [hdd]; exact List.mem_cons_self _ _)
      rw [hc] at this
      exact absurd this (by decide)
  have h0 : decimalValue d.data ≠ 0 := by omega
  simp [rule3, e0, e1, e2, hm, not_lt.mpr hmax, h0, hnm]

theorem peepholer_array_size_witness :
    peepholer [⟨1, 1, "[", TokenLeftBracket, none⟩, ⟨1, 2, "42", TokenNumber, none⟩,
        ⟨1, 4, "]", TokenRightBracket, none⟩]
      = .returned (some [⟨1, 1, "[42]", TokenTypeArray, some 42⟩], none) :=
  peepholer_array_size "42" ⟨1, 1, "[", TokenLeftBracket, none⟩ ⟨1, 2, "42", TokenNumber, none⟩
    ⟨1, 4, "]", TokenRightBracket, none⟩ (by decide) (by decide) (by decide) (by decide)
    rfl rfl rfl

/-! ## The raw scan -/

/-- The token `Scanner.scan` builds for a unit. -/
theorem scanLoop_mapped (sx : List RawUnit) :
    ∀ tokens : List Token, (∀ u ∈ sx, convertId u.code ≠ TokenInvalid) →
      scanLoop sx tokens
        = .returned (some (tokens ++ sx.map fun u =>
            { Line := u.posLine, Column := u.posColumn, Text := u.text,
              Id := convertId u.code, Value := none }), none) := by
  induction sx with
  | nil => intro tokens _; simp [scanLoop]
  | cons u rest ih =>
    intro tokens h
    have hu := h u (List.mem_cons_self _ _)
    have hne : u.code ≠ EOF := by
      intro he
      apply hu
      rw [he]
      decide
    rw [scanLoop]
    simp only [hne, hu, if_false]
    rw [ih _ (fun v hv => h v (List.mem_cons_of_mem _ hv))]
    simp

theorem convertId_of_mem_idTable {c : Int} (h : c ∈ idTable.map Prod.fst) :
    (c, convertId c) ∈ idTable ∧ convertId c ≠ TokenInvalid := by
  simp only [idTable, List.map_cons, List.map_nil, List.mem_cons, List.mem_singleton,
    List.not_mem_nil, or_false] at h
  rcases h with h | h | h | h | h | h | h | h | h | h | h <;> subst h <;> decide

/-- C9. On a sequence of raw units whose codes all lie in the translation table
(identifier, integer literal, and the characters `(` `)` `*` `+` `<` `>` `[`
`]` `|`), `scan` succeeds and returns exactly one token per unit, in the same
order, whose text is the unit's text and whose kind is the one the table gives
for the unit's code; `convertId` returns `TokenInvalid` for every code outside
the table. -/
theorem scan_maps_units_through_table :
    (∀ sx : List RawUnit, (∀ u ∈ sx, u.code ∈ idTable.map Prod.fst) →
      ∃ out, scan sx = .returned (some out, none) ∧
        List.Forall₂ (fun u t => t.Text = u.text ∧ (u.code, t.Id) ∈ idTable) sx out) ∧
    (∀ c : Int, c ∉ idTable.map Prod.fst → convertId c = TokenInvalid) := by
  constructor
  · intro sx h
    refine ⟨_, scanLoop_mapped sx [] (fun u hu => (convertId_of_mem_idTable (h u hu)).2), ?_⟩
    simp only [List.nil_append, List.forall₂_map_right_iff]
    apply List.forall₂_same.mpr
    intro u hu
    exact ⟨rfl, (convertId_of_mem_idTable (h u hu)).1⟩
  · intro c hc
    simp only [idTable, List.map_cons, List.map_nil, List.mem_cons, List.mem_singleton,
      List.not_mem_nil, or_false, not_or] at hc
    obtain ⟨h1, h2, h3, h4, h5, h6, h7, h8, h9, h10, h11⟩ := hc
    have e3 : ('('.toNat : Int) = 40 := by decide
    have e4 : (')'.toNat : Int) = 41 := by decide
    have e5 : ('*'.toNat : Int) = 42 := by decide
    have e6 : ('+'.toNat : Int) = 43 := by decide
    have e7 : ('<'.toNat : Int) = 60 := by decide
    have e8 : ('>'.toNat : Int) = 62 := by decide
    have e9 : ('['.toNat : Int) = 91 := by decide
    have e10 : (']'.toNat : Int) = 93 := by decide
    have e11 : ('|'.toNat : Int) = 124 := by decide
    rw [e3] at h3; rw [e4] at h4; rw [e5] at h5; rw [e6] at h6; rw [e7] at h7
    rw [e8] at h8; rw [e9] at h9; rw [e10] at h10; rw [e11] at h11
    simp [convertId, h1, h2, h3, h4, h5, h6, h7, h8, h9, h10, h11]

theorem scan_maps_units_through_table_witness :
    ∃ out, scan [⟨40, "(", 1, 2⟩, ⟨41, ")", 1, 3⟩] = .returned (some out, none) ∧
      List.Forall₂ (fun u t => t.Text = u.text ∧ (u.code, t.Id) ∈ idTable)
        [(⟨40, "(", 1, 2⟩ : RawUnit), ⟨41, ")", 1, 3⟩] out :=
  scan_maps_units_through_table.1 [⟨40, "(", 1, 2⟩, ⟨41, ")", 1, 3⟩] (by decide)

theorem scanLoop_unknown (pre : List RawUnit) (u : RawUnit) (post : List RawUnit) :
    ∀ tokens : List Token, (∀ p ∈ pre, convertId p.code ≠ TokenInvalid) →
      convertId u.code = TokenInvalid → u.code ≠ EOF →
      scanLoop (pre ++ u :: post) tokens
        = .returned (none, some (unknownTokenError u.code u.text)) := by
  induction pre with
  | nil =>
    intro tokens _ hu hne
    simp [scanLoop, hu, hne]
  | cons p rest ih =>
    intro tokens h hu hne
    have hp := h p (List.mem_cons_self _ _)
    have hpe : p.code ≠ EOF := by
      intro he
      apply hp
      rw [he]
      decide
    rw [List.cons_append, scanLoop]
    simp only [hpe, hp, if_false]
    exact ih _ (fun v hv => h v (List.mem_cons_of_mem _ hv)) hu hne

/-- C8. When the sequence of raw units contains a unit whose code `convertId`
maps to `TokenInvalid` (the first such unit being `u`, after the valid units
`pre`; `u` is a unit, not the end-of-input marker), both `scan` and `Scan`
return a non-nil error built from the code and text of `u`, and a nil token
sequence, whatever valid tokens preceded it and whatever follows. -/
theorem scan_unknown_token_fails_fast (pre : List RawUnit) (u : RawUnit) (post : List RawUnit)
    (hpre : ∀ p ∈ pre, convertId p.code ≠ TokenInvalid)
    (hu : convertId u.code = TokenInvalid) (hne : u.code ≠ EOF) :
    scan (pre ++ u :: post) = .returned (none, some (unknownTokenError u.code u.text)) ∧
    Scan (pre ++ u :: post) = .returned (none, some (unknownTokenError u.code u.text)) := by
  have h := scanLoop_unknown pre u post [] hpre hu hne
  exact ⟨h, by simp [Scan, scan, h]⟩

theorem scan_unknown_token_fails_fast_witness :
    scan [⟨40, "(", 1, 2⟩, ⟨35, "#", 1, 3⟩, ⟨41, ")", 1, 4⟩]
        = .returned (none, some "Unknown token type 35 (#)") ∧
    Scan [⟨40, "(", 1, 2⟩, ⟨35, "#", 1, 3⟩, ⟨41, ")", 1, 4⟩]
        = .returned (none, some "Unknown token type 35 (#)") :=
  scan_unknown_token_fails_fast [⟨40, "(", 1, 2⟩] ⟨35, "#", 1, 3⟩ [⟨41, ")", 1, 4⟩]
    (by decide) (by decide) (by decide)

/-! ## Type nodes -/

/-- C10. The canonical rendering of the type nodes: the four scalars render as
`INT`, `FLOAT`, `BOOL`, `STRING`; a name renders as itself; `Slice(E)` as
`SLICE(` E `)`; `Array(E, n)` as `ARRAY(` decimal n `, ` E `)`; `Map(K, V)` as
`MAP[` K `]` V; `Field(name, N)` as `FIELD(` name `,` N `)`. In particular
`Array(Int, 3)` renders `ARRAY(3, INT)`, `Map(String, Bool)` renders
`MAP[STRING]BOOL` and `Slice(Float)` renders `SLICE(FLOAT)`. -/
theorem typeNode_canonical_rendering :
    (∀ (E K V N : TypeNode) (name : String) (n : Int),
      TypeNode.TypeNodeInt.String = "INT" ∧ TypeNode.TypeNodeFloat.String = "FLOAT" ∧
      TypeNode.TypeNodeBool.String = "BOOL" ∧ TypeNode.TypeNodeString.String = "STRING" ∧
      (TypeNode.TypeNodeName name).String = name ∧
      (TypeNode.TypeNodeSlice E).String = "SLICE(" ++ E.String ++ ")" ∧
      (TypeNode.TypeNodeArray E n).String
        = "ARRAY(" ++ toString n ++ ", " ++ E.String ++ ")" ∧
      (TypeNode.TypeNodeMap K V).String = "MAP[" ++ K.String ++ "]" ++ V.String ∧
      (TypeNode.TypeNodeField name N).String = "FIELD(" ++ name ++ "," ++ N.String ++ ")") ∧
    (TypeNode.TypeNodeArray .TypeNodeInt 3).String = "ARRAY(3, INT)" ∧
    (TypeNode.TypeNodeMap .TypeNodeString .TypeNodeBool).String = "MAP[STRING]BOOL" ∧
    (TypeNode.TypeNodeSlice .TypeNodeFloat).String = "SLICE(FLOAT)" := by
  refine ⟨fun E K V N name n => ?_, by decide, by decide, by decide⟩
  simp [TypeNode.String]

/-! ## Positions -/

theorem peepholer_returned {ts out : List Token} {err : Option String}
    (h : peepholer ts = .returned (some out, err)) : mergeFrom ts = .returned out := by
  rw [peepholer_eq] at h
  cases hm : mergeFrom ts with
  | returned o =>
    rw [hm] at h
    simp only [Outcome.bind_returned, Outcome.returned.injEq, Prod.mk.injEq,
      Option.some.injEq] at h
    rw [h.1]
  | panicked v => rw [hm] at h; simp at h
  | outOfFuel => rw [hm] at h; simp at h

theorem mergeFrom_windows :
    ∀ (n : Nat) (ts out : List Token), ts.length ≤ n → mergeFrom ts = .returned out →
      ∃ windows : List (List Token), windows.flatten = ts ∧ List.Forall₂ WindowOf windows out := by
  intro n
  induction n with
  | zero =>
    intro ts out hn h
    have : ts = [] := List.length_eq_zero.mp (by omega)
    rw [this, mergeFrom_nil] at h
    simp only [Outcome.returned.injEq] at h
    exact ⟨[], by simp [this], by rw [← h]; exact List.Forall₂.nil⟩
  | succ n ih =>
    intro ts out hn h
    match ts, hn, h with
    | [], _, h =>
      rw [mergeFrom_nil] at h
      simp only [Outcome.returned.injEq] at h
      exact ⟨[], by simp, by rw [← h]; exact List.Forall₂.nil⟩
    | t0 :: rest, hn, h =>
      obtain ⟨u, k, out2, hs, hm, e⟩ := mergeFrom_cons_returned h
      have hk := headStep_consumed hs
      have hlen : (rest.drop (k - 1)).length ≤ n := by
        simp only [List.length_drop, List.length_cons] at hn ⊢
        omega
      obtain ⟨ws, hflat, hall⟩ := ih _ _ hlen hm
      have hpos : u.Line = t0.Line ∧ u.Column = t0.Column := by
        rcases headStep_inv hs with ⟨_, hu, _⟩ | ⟨_, _, hl, hc⟩
        · rw [hu]; exact ⟨rfl, rfl⟩
        · exact ⟨hl, hc⟩
      refine ⟨(t0 :: rest.take (k - 1)) :: ws, ?_, ?_⟩
      · simp only [List.flatten_cons, hflat, List.cons_append, List.take_append_drop]
      · rw [e]
        refine List.Forall₂.cons ⟨?_, t0, _, rfl, hpos.1, hpos.2⟩ hall
        simp only [List.length_cons, List.length_take]
        omega

/-! ## Values -/

theorem convertId_ne_array (r : Int) : convertId r ≠ TokenTypeArray := by
  unfold convertId
  repeat' split
  all_goals exact fun h => TokenId.noConfusion h

theorem scanLoop_inv (sx : List RawUnit) :
    ∀ (tokens : List Token) (r : Option (List Token) × Option String),
      scanLoop sx tokens = .returned r →
      (∃ e, r = (none, some e)) ∨
      (∃ more, r = (some (tokens ++ more), none) ∧
        ∀ t ∈ more, t.Value = none ∧ t.Id ≠ TokenTypeArray) := by
  induction sx with
  | nil =>
    intro tokens r h
    simp only [scanLoop, Outcome.returned.injEq] at h
    exact Or.inr ⟨[], by simp [← h], by simp⟩
  | cons u rest ih =>
    intro tokens r h
    rw [scanLoop] at h
    simp only at h
    split_ifs at h with h1 h2
    · simp only [Outcome.returned.injEq] at h
      exact Or.inr ⟨[], by simp [← h], by simp⟩
    · simp only [Outcome.returned.injEq] at h
      exact Or.inl ⟨_, h.symm⟩
    · rcases ih _ r h with he | ⟨more, hr, hall⟩
      · exact Or.inl he
      · refine Or.inr ⟨{ Line := u.posLine, Column := u.posColumn, Text := u.text,
                         Id := convertId u.code } :: more, by rw [hr]; simp, ?_⟩
        intro t ht
        rcases List.mem_cons.mp ht with e | hin
        · rw [e]; exact ⟨rfl, convertId_ne_array _⟩
        · exact hall t hin

theorem scan_never_panics (sx : List RawUnit) :
    ∀ tokens : List Token, ∃ r, scanLoop sx tokens = .returned r := by
  induction sx with
  | nil => intro tokens; exact ⟨_, rfl⟩
  | cons u rest ih =>
    intro tokens
    rw [scanLoop]
    simp only
    split_ifs
    · exact ⟨_, rfl⟩
    · exact ⟨_, rfl⟩
    · exact ih _

/-- What a successful `Scan` is made of: a successful raw scan whose tokens carry
no value and are not of kind `TokenTypeArray`, followed by the merger. -/
theorem Scan_returned {sx : List RawUnit} {out : List Token}
    (h : Scan sx = .returned (some out, none)) :
    ∃ raw, scan sx = .returned (some raw, none) ∧ mergeFrom raw = .returned out ∧
      ∀ t ∈ raw, t.Value = none ∧ t.Id ≠ TokenTypeArray := by
  obtain ⟨r, hr⟩ := scan_never_panics sx []
  have hr2 : scan sx = .returned r := hr
  rcases scanLoop_inv sx [] r hr with ⟨e, he⟩ | ⟨raw, hraw, hall⟩
  · rw [he] at hr2
    simp [Scan, hr2] at h
  · rw [hraw] at hr2
    simp only [List.nil_append] at hr2
    refine ⟨raw, hr2, ?_, hall⟩
    simp only [Scan, hr2, Outcome.returned_bind, ne_eq, not_true_eq_false, if_false,
      Option.getD_some] at h
    cases hp : peepholer raw with
    | returned p =>
      obtain ⟨o, e⟩ := p
      rw [hp] at h
      simp only [Outcome.returned_bind] at h
      have he : e = none := by
        have := peepholer_eq raw
        rw [hp] at this
        cases hm : mergeFrom raw with
        | returned x =>
          rw [hm] at this
          simp only [Outcome.bind_returned, Outcome.returned.injEq, Prod.mk.injEq] at this
          exact this.2
        | panicked v => rw [hm] at this; simp at this
        | outOfFuel => rw [hm] at this; simp at this
      rw [he] at h hp
      simp only [ne_eq, not_true_eq_false, if_false, Outcome.pure_eq, Outcome.returned.injEq,
        Prod.mk.injEq, and_true] at h
      rw [h] at hp
      exact peepholer_returned hp
    | panicked v => rw [hp] at h; simp at h
    | outOfFuel => rw [hp] at h; simp at h

theorem synth_value_iff {t : Token} (h : Synth t) :
    t.Value ≠ none ↔ t.Id = TokenTypeArray := by
  rcases h with ⟨_, hi, hv⟩ | ⟨_, hi, n, hv, _⟩ | ⟨_, hi, hv⟩ | ⟨_, hi, hv⟩ | ⟨_, hi, hv⟩ <;>
    simp [hi, hv]

/-- C7, as the code has it. In the output of a successful `Scan`, a token
carries a value if and only if its kind is `TokenTypeArray`; the raw scan sets
no value, so a `TokenNumber` token has none. -/
theorem Scan_value_iff_array (sx : List RawUnit) (out : List Token)
    (h : Scan sx = .returned (some out, none)) (t : Token) (ht : t ∈ out) :
    t.Value ≠ none ↔ t.Id = TokenTypeArray := by
  obtain ⟨raw, _, hm, hall⟩ := Scan_returned h
  rcases mergeFrom_origin raw.length raw out (Nat.le_refl _) hm t ht with hin | hs
  · have := hall t hin
    simp [this.1, this.2]
  · exact synth_value_iff hs

theorem Scan_value_iff_array_witness :
    ((⟨1, 5, "[42]", TokenTypeArray, some 42⟩ : Token).Value ≠ none
      ↔ (⟨1, 5, "[42]", TokenTypeArray, some 42⟩ : Token).Id = TokenTypeArray) :=
  Scan_value_iff_array [⟨91, "[", 1, 5⟩, ⟨-3, "42", 1, 7⟩, ⟨93, "]", 1, 8⟩]
    [⟨1, 5, "[42]", TokenTypeArray, some 42⟩] (by decide)
    ⟨1, 5, "[42]", TokenTypeArray, some 42⟩ (by decide)

/-- C7 as stated fails: scanning the text `42` succeeds with one token of kind
`TokenNumber` that carries no value. -/
theorem Scan_number_without_value :
    Scan [⟨-3, "42", 1, 3⟩] = .returned (some [⟨1, 3, "42", TokenNumber, none⟩], none) ∧
    ¬ ((⟨1, 3, "42", TokenNumber, none⟩ : Token).Value ≠ none
        ↔ ((⟨1, 3, "42", TokenNumber, none⟩ : Token).Id = TokenNumber
            ∨ (⟨1, 3, "42", TokenNumber, none⟩ : Token).Id = TokenTypeArray)) := by
  decide

/-! ## Invalid array sizes -/

/-- From a state the cursor reaches, the loop goes on as from the start. -/
theorem peepholer_of_reaches {tokens : List Token} {i : Nat} {result : List Token}
    (h : CursorReaches tokens i result) :
    peepholer tokens
      = (mergeFrom (tokens.drop i)).bind fun out => .returned (some (result ++ out), none) := by
  induction h with
  | start => simpa using peepholer_eq tokens
  | @step i i2 result result2 _ hle hit ih =>
    have hi : i < tokens.length := by omega
    have hd : tokens.drop i = tokens[i] :: tokens.drop (i + 1) := List.drop_eq_getElem_cons hi
    rw [peepholerIteration_eq tokens i result _ _ hd] at hit
    rw [ih, hd, mergeFrom_cons]
    cases hs : headStep tokens[i] (tokens.drop (i + 1)) with
    | returned p =>
      obtain ⟨t, k⟩ := p
      rw [hs] at hit
      simp only [Outcome.bind_returned, Outcome.returned.injEq, Prod.mk.injEq] at hit
      have hk := (headStep_consumed hs).1
      have hdd : List.drop (k - 1) (List.drop (i + 1) tokens) = List.drop i2 tokens := by
        rw [List.drop_drop, ← hit.1]; congr 1; omega
      simp only [Outcome.bind_returned, hdd, ← hit.2]
      cases mergeFrom (List.drop i2 tokens) <;> simp
    | panicked v => rw [hs] at hit; simp at hit
    | outOfFuel => rw [hs] at hit; simp at hit

theorem drop_of_window {tokens : List Token} {i : Nat} {t0 t1 t2 : Token}
    (h0 : tokens[i]? = some t0) (h1 : tokens[i + 1]? = some t1)
    (h2 : tokens[i + 2]? = some t2) :
    tokens.drop i = t0 :: t1 :: t2 :: tokens.drop (i + 3) := by
  obtain ⟨l0, e0⟩ := List.getElem?_eq_some.mp h0
  obtain ⟨l1, e1⟩ := List.getElem?_eq_some.mp h1
  obtain ⟨l2, e2⟩ := List.getElem?_eq_some.mp h2
  rw [List.drop_eq_getElem_cons l0, List.drop_eq_getElem_cons l1,
    List.drop_eq_getElem_cons l2, e0, e1, e2]

/-- C3, as the code has it. When the cursor of the merger reaches a three-token
window whose text is `[`, digits, `]` and the digits decode to 0 or to more than
`maxInt`, the call to `peepholer` panics: with a nil value for a size of 0, with
the error of `strconv.Atoi` when the digits do not fit an `int`. Nothing is
returned to the caller, neither tokens nor an error. -/
theorem peepholer_invalid_array_size_panics (tokens : List Token) (i : Nat)
    (result : List Token) (t0 t1 t2 : Token) (d : String)
    (hreach : CursorReaches tokens i result)
    (h0 : tokens[i]? = some t0) (h1 : tokens[i + 1]? = some t1)
    (h2 : tokens[i + 2]? = some t2)
    (htext : t0.Text ++ t1.Text ++ t2.Text = "[" ++ d ++ "]")
    (hne : d.data ≠ []) (hd : ∀ c ∈ d.data, c.isDigit = true)
    (hbad : decimalValue d.data = 0 ∨ maxInt < (decimalValue d.data : Int)) :
    peepholer tokens
      = .panicked (if maxInt < (decimalValue d.data : Int) then .atoiError else .nilValue) := by
  have hs : ("[" ++ d ++ "]").data = '[' :: (d.data ++ ']' :: []) := by
    simp [String.data_append]
  have hm := matchArrayTypePrefix_of_digits _ d.data [] hne hd hs
  rw [peepholer_of_reaches hreach, drop_of_window h0 h1 h2, mergeFrom_cons]
  by_cases hov : maxInt < (decimalValue d.data : Int)
  · rw [if_pos hov] at hm ⊢
    simp only [headStep, rule3, htext, hm, Outcome.bind_panicked]
  · have hz : decimalValue d.data = 0 := by
      rcases hbad with hz | hz
      · exact hz
      · exact absurd hz hov
    rw [if_neg hov] at hm ⊢
    rw [if_pos hz] at hm
    simp only [headStep, rule3, htext, hm, Outcome.bind_panicked]

theorem peepholer_invalid_array_size_panics_witness :
    peepholer [⟨1, 1, "x", TokenSymbol, none⟩, ⟨1, 3, "[", TokenLeftBracket, none⟩,
        ⟨1, 4, "000", TokenNumber, none⟩, ⟨1, 7, "]", TokenRightBracket, none⟩]
      = .panicked .nilValue :=
  peepholer_invalid_array_size_panics
    [⟨1, 1, "x", TokenSymbol, none⟩, ⟨1, 3, "[", TokenLeftBracket, none⟩,
     ⟨1, 4, "000", TokenNumber, none⟩, ⟨1, 7, "]", TokenRightBracket, none⟩]
    1 [⟨1, 1, "x", TokenSymbol, none⟩]
    ⟨1, 3, "[", TokenLeftBracket, none⟩ ⟨1, 4, "000", TokenNumber, none⟩
    ⟨1, 7, "]", TokenRightBracket, none⟩ "000"
    (CursorReaches.step CursorReaches.start (by decide) (by decide))
    (by decide) (by decide) (by decide) (by decide) (by decide) (by decide) (by decide)

/-- C3 as stated fails: on the window `[`, `0`, `]` the call panics with a nil
value, so no failure result (nil tokens and a non-nil error) is returned. -/
theorem peepholer_zero_size_is_a_panic :
    peepholer [⟨1, 1, "[", TokenLeftBracket, none⟩, ⟨1, 2, "0", TokenNumber, none⟩,
        ⟨1, 3, "]", TokenRightBracket, none⟩] = .panicked .nilValue ∧
    ¬ ∃ err : String,
      peepholer [⟨1, 1, "[", TokenLeftBracket, none⟩, ⟨1, 2, "0", TokenNumber, none⟩,
        ⟨1, 3, "]", TokenRightBracket, none⟩] = .returned (none, some err) := by
  have h : peepholer [⟨1, 1, "[", TokenLeftBracket, none⟩, ⟨1, 2, "0", TokenNumber, none⟩,
        ⟨1, 3, "]", TokenRightBracket, none⟩] = .panicked .nilValue := by decide
  refine ⟨h, ?_⟩
  rintro ⟨err, he⟩
  rw [h] at he
  exact Outcome.noConfusion he

/-! ## Running the merger on its own output -/

theorem atomic_of_isPrimitiveText {s : String} (h : isPrimitiveText s = true) :
    Atomic s.data := by
  simp only [isPrimitiveText, Bool.or_eq_true, decide_eq_true_eq, Bool.and_eq_true,
    Bool.not_eq_true', List.all_eq_true] at h
  rcases h with h | ⟨hne, hw⟩
  · simp only [List.mem_cons, List.mem_singleton, List.not_mem_nil, or_false] at h
    rcases h with h | h | h | h | h | h | h | h | h <;> subst h <;>
      (unfold Atomic; decide)
  · refine ⟨by intro e; rw [e] at hne; simp at hne, ?_⟩
    intro c hc hsp
    have hwc := hw c hc
    rcases hsp with e | e | e | e <;> (rw [e] at hwc; exact absurd hwc (by decide))

theorem mergedText_of_synth {t : Token} (h : Synth t) : MergedText t.Text.data := by
  rcases h with ⟨ht, _⟩ | ⟨⟨d, r, hne, _, hx⟩, _⟩ | ⟨ht, _⟩ | ⟨ht, _⟩ | ⟨ht, _⟩
  · rw [ht]; exact ⟨'[', 'm', ['a', 'p', ']'], rfl, Or.inl rfl⟩
  · match d, hne, hx with
    | c :: d2, _, hx => exact ⟨'[', c, d2 ++ ']' :: r, hx, Or.inl rfl⟩
  · rw [ht]; exact ⟨'|', '|', [], rfl, Or.inr (Or.inl rfl)⟩
  · rw [ht]; exact ⟨'&', '&', [], rfl, Or.inr (Or.inr rfl)⟩
  · rw [ht]; exact ⟨'[', ']', [], rfl, Or.inl rfl⟩

theorem fires3_shape {s : String} (h : Fires3 s) :
    ∃ y0 y, s.data = '[' :: y0 :: y ∧ (y0 = 'm' ∨ y0.isDigit = true) := by
  rcases h with h | ⟨d, r, hne, hd, hx⟩
  · rw [h]; exact ⟨'m', ['a', 'p', ']'], rfl, Or.inl rfl⟩
  · match d, hne, hd, hx with
    | c :: d2, _, hd, hx =>
      exact ⟨c, d2 ++ ']' :: r, hx, Or.inr (hd c (List.mem_cons_self _ _))⟩

theorem fires2_length {s : String} (h : Fires2 s) : s.data.length = 2 := by
  rcases h with h | h | h <;> (rw [h]; rfl)

/-- An atomic text that begins a text on which a three-token rule applies is `[`. -/
theorem atomic_head_of_fires3 {a : String} {tl : List Char} {y0 : Char} {y : List Char}
    (ha : Atomic a.data) (h : a.data ++ tl = '[' :: y0 :: y) :
    a.data = ['['] ∧ tl = y0 :: y := by
  match hd : a.data, ha.1 with
  | a0 :: ar, _ =>
    rw [hd] at h
    simp only [List.cons_append, List.cons.injEq] at h
    have hone := (ha.2 a0 (by rw [hd]; exact List.mem_cons_self _ _) (Or.inl h.1)).1
    rw [hd] at hone
    simp only [List.cons.injEq, true_and] at hone
    rw [hone] at h
    rw [hone, h.1]
    exact ⟨rfl, by simpa using h.2⟩

theorem special_not_word_start {c1 : Char} (h : c1 = '[' ∨ c1 = '|' ∨ c1 = '&') :
    c1 ≠ 'm' ∧ c1 ≠ 'a' ∧ c1 ≠ 'p' ∧ c1 ≠ ']' ∧ c1.isDigit = false := by
  rcases h with h | h | h <;> subst h <;> decide

/-- No three-token rule applies when the second text is a synthesized one. -/
theorem not_fires3_of_merged_second {a b c : String} (ha : Atomic a.data)
    (hb : MergedText b.data) : ¬ Fires3 (a ++ b ++ c) := by
  intro h
  obtain ⟨y0, y, hs, hy⟩ := fires3_shape h
  obtain ⟨c1, c2, r, hbd, hc1⟩ := hb
  simp only [String.data_append, List.append_assoc] at hs
  have h2 := (atomic_head_of_fires3 ha hs).2
  rw [hbd] at h2
  simp only [List.cons_append, List.cons.injEq] at h2
  have hsp := special_not_word_start hc1
  rw [h2.1] at hsp
  rcases hy with hy | hy
  · exact hsp.1 hy
  · rw [hy] at hsp; exact absurd hsp.2.2.2.2 (by decide)

/-- No three-token rule applies when the third text is a synthesized one. -/
theorem not_fires3_of_merged_third {a b c : String} (ha : Atomic a.data)
    (hb : Atomic b.data) (hc : MergedText c.data) : ¬ Fires3 (a ++ b ++ c) := by
  intro h
  obtain ⟨y0, y, hs, _⟩ := fires3_shape h
  obtain ⟨c1, c2, r, hcd, hc1⟩ := hc
  have hsp := special_not_word_start hc1
  simp only [String.data_append, List.append_assoc] at hs
  have ha1 := (atomic_head_of_fires3 ha hs).1
  have hdata : (a ++ b ++ c).data = '[' :: (b.data ++ c1 :: c2 :: r) := by
    simp [String.data_append, ha1, hcd]
  rcases h with h | ⟨d, r2, hne, hd, hx⟩
  · have h1 := congrArg String.data h
    rw [hdata] at h1
    have h2 : b.data ++ c1 :: c2 :: r = ['m', 'a', 'p', ']'] := (List.cons.inj h1).2
    match hbd : b.data, hb.1 with
    | [b1], _ =>
      rw [hbd] at h2
      simp only [List.singleton_append, List.cons.injEq] at h2
      exact hsp.2.1 h2.2.1
    | [b1, b2], _ =>
      rw [hbd] at h2
      simp only [List.cons_append, List.nil_append, List.cons.injEq] at h2
      exact hsp.2.2.1 h2.2.2.1
    | b1 :: b2 :: b3 :: br, _ =>
      rw [hbd] at h2
      have := congrArg List.length h2
      simp at this
      omega
  · rw [hdata] at hx
    have hx2 : b.data ++ c1 :: c2 :: r = d ++ ']' :: r2 := (List.cons.inj hx).2
    have hdw := dropWhile_digits d r2 hd
    have htw := takeWhile_digits d r2 hd
    rw [← hx2] at hdw htw
    by_cases hbdig : ∀ ch ∈ b.data, ch.isDigit = true
    · rw [List.dropWhile_append_of_pos hbdig,
        List.dropWhile_cons_of_neg (by simp [hsp.2.2.2.2])] at hdw
      exact hsp.2.2.2.1 (List.cons.inj hdw).1
    · have hnil : b.data.dropWhile Char.isDigit ≠ [] := by
        intro e
        exact hbdig (List.dropWhile_eq_nil_iff.mp e)
      rw [List.dropWhile_append] at hdw
      match hdb : b.data.dropWhile Char.isDigit, hnil with
      | x :: xs, _ =>
        rw [hdb] at hdw
        simp only [List.isEmpty_cons, Bool.false_eq_true, if_false, List.cons_append,
          List.cons.injEq] at hdw
        have hxin : x ∈ b.data := by
          have : x ∈ b.data.dropWhile Char.isDigit := by rw [hdb]; exact List.mem_cons_self _ _
          exact (List.dropWhile_sublist _).subset this
        have hb1 := (hb.2 x hxin (Or.inr (Or.inl hdw.1))).1
        rw [hb1, hdw.1] at htw
        rw [List.singleton_append, List.takeWhile_cons_of_neg (by decide)] at htw
        exact hne htw.symm

/-- A synthesized token at the cursor is left alone, unless it is an array token
with two tokens after it. -/
theorem quiet_of_synth {e : Token} {out2 : List Token} (he : Synth e)
    (hne : ∀ t ∈ out2, t.Text.data ≠ [])
    (harr : e.Id = TokenTypeArray → out2.length < 2) : Quiet e out2 := by
  obtain ⟨e1, e2, er, hed, _⟩ := mergedText_of_synth he
  constructor
  · intro t1 r hout hf
    have hlen := fires2_length hf
    have ht1 := hne t1 (by rw [hout]; exact List.mem_cons_self _ _)
    have : 0 < t1.Text.data.length := List.length_pos.mpr ht1
    simp only [String.data_append, List.length_append, hed, List.length_cons] at hlen
    omega
  · intro t1 t2 r hout hf
    have ht1 := hne t1 (by rw [hout]; exact List.mem_cons_self _ _)
    obtain ⟨y0, y, hs, hy⟩ := fires3_shape hf
    simp only [String.data_append, List.append_assoc] at hs
    rcases he with ⟨ht, _⟩ | ⟨_, hid, _⟩ | ⟨ht, _⟩ | ⟨ht, _⟩ | ⟨ht, _⟩
    · rcases hf with hf | ⟨d, r2, hne2, hd, hx⟩
      · have h1 := congrArg String.data hf
        simp only [String.data_append, ht, List.append_assoc] at h1
        have h2 : t1.Text.data ++ t2.Text.data = [] := by
          have : "[map]".data ++ (t1.Text.data ++ t2.Text.data) = "[map]".data ++ [] := by
            simpa using h1
          exact List.append_cancel_left this
        exact ht1 (List.append_eq_nil.mp h2).1
      · simp only [String.data_append, ht, List.append_assoc] at hx
        match d, hne2, hd, hx with
        | c :: d2, _, hd, hx =>
          have hc : c = 'm' := by
            simp only [List.cons_append, List.cons.injEq] at hx
            exact hx.2.1.symm
          have := hd c (List.mem_cons_self _ _)
          rw [hc] at this
          exact absurd this (by decide)
    · have := harr hid
      rw [hout] at this
      simp only [List.length_cons] at this
      omega
    · rw [ht] at hs
      have h3 : "||".data = ['|', '|'] := rfl
      rw [h3] at hs
      simp only [List.cons_append, List.cons.injEq] at hs
      exact absurd hs.1 (by decide)
    · rw [ht] at hs
      have h3 : "&&".data = ['&', '&'] := rfl
      rw [h3] at hs
      simp only [List.cons_append, List.cons.injEq] at hs
      exact absurd hs.1 (by decide)
    · rw [ht] at hs
      have h3 : "[]".data = ['[', ']'] := rfl
      rw [h3] at hs
      simp only [List.cons_append, List.cons.injEq, true_and] at hs
      rcases hy with hy | hy
      · rw [← hs.1] at hy; exact absurd hy (by decide)
      · rw [← hs.1] at hy; exact absurd hy (by decide)

/-- A token left alone by the first pass is left alone by a second pass: the
tokens after it in the output begin like the tokens after it in the input. -/
theorem quiet_preserved {t0 : Token} {rest out2 : List Token}
    (h0 : Atomic t0.Text.data) (hrest : ∀ t ∈ rest, Atomic t.Text.data)
    (hq : Quiet t0 rest) (hm : mergeFrom rest = .returned out2) : Quiet t0 out2 := by
  constructor
  · intro b r hout hf
    rw [hout] at hm
    obtain ⟨t1, rest1, hr, hcase⟩ := mergeFrom_head hm
    rcases hcase with ⟨hb, _, _⟩ | hsy
    · rw [hb] at hf
      exact hq.1 t1 rest1 hr hf
    · obtain ⟨c1, c2, cr, hbd, _⟩ := mergedText_of_synth hsy
      have hlen := fires2_length hf
      have : 0 < t0.Text.data.length := List.length_pos.mpr h0.1
      simp only [String.data_append, List.length_append, hbd, List.length_cons] at hlen
      omega
  · intro b c r hout hf
    rw [hout] at hm
    obtain ⟨t1, rest1, hr, hcase⟩ := mergeFrom_head hm
    rcases hcase with ⟨hb, _, hm1⟩ | hsy
    · obtain ⟨t2, rest2, hr1, hcase1⟩ := mergeFrom_head hm1
      have ht1 : Atomic t1.Text.data := hrest t1 (by rw [hr]; exact List.mem_cons_self _ _)
      rcases hcase1 with ⟨hc, _, _⟩ | hsy
      · rw [hb, hc] at hf
        exact hq.2 t1 t2 rest2 (by rw [hr, hr1]) hf
      · rw [hb] at hf
        exact not_fires3_of_merged_third h0 ht1 (mergedText_of_synth hsy) hf
    · exact not_fires3_of_merged_second h0 (mergedText_of_synth hsy) hf

theorem noArrayBeforeLastTwo_cons {a : Token} {post : List Token}
    (h : noArrayBeforeLastTwo (a :: post) = true) :
    (a.Id = TokenTypeArray → post.length < 2) ∧ noArrayBeforeLastTwo post = true := by
  simp only [noArrayBeforeLastTwo, Bool.and_eq_true, Bool.or_eq_true, decide_eq_true_eq] at h
  refine ⟨fun hid => ?_, h.2⟩
  rcases h.1 with h1 | h1
  · exact absurd hid h1
  · exact h1

/-- On atomic texts, a second pass changes nothing unless an array token of the
first pass has two tokens after it. -/
theorem mergeFrom_idempotent :
    ∀ (n : Nat) (ts out : List Token), ts.length ≤ n →
      (∀ t ∈ ts, Atomic t.Text.data) → mergeFrom ts = .returned out →
      noArrayBeforeLastTwo out = true → mergeFrom out = .returned out := by
  intro n
  induction n with
  | zero =>
    intro ts out hn _ h _
    have : ts = [] := List.length_eq_zero.mp (by omega)
    rw [this, mergeFrom_nil] at h
    simp only [Outcome.returned.injEq] at h
    rw [← h, mergeFrom_nil]
  | succ n ih =>
    intro ts out hn hat h harr
    match ts, hn, hat, h with
    | [], _, _, h =>
      rw [mergeFrom_nil] at h
      simp only [Outcome.returned.injEq] at h
      rw [← h, mergeFrom_nil]
    | t0 :: rest, hn, hat, h =>
      obtain ⟨u, k, out2, hs, hm, e⟩ := mergeFrom_cons_returned h
      rw [e] at harr ⊢
      obtain ⟨harr1, harr2⟩ := noArrayBeforeLastTwo_cons harr
      have hlen : (rest.drop (k - 1)).length ≤ n := by
        simp only [List.length_drop, List.length_cons] at hn ⊢
        omega
      have hat2 : ∀ t ∈ rest.drop (k - 1), Atomic t.Text.data := fun t ht =>
        hat t (List.mem_cons_of_mem _ (List.mem_of_mem_drop ht))
      have hrec := ih _ _ hlen hat2 hm harr2
      have hq : Quiet u out2 := by
        rcases headStep_inv hs with ⟨hk, hu, hq0⟩ | ⟨_, hsy, _, _⟩
        · rw [hk] at hm
          simp only [Nat.sub_self, List.drop_zero] at hm
          rw [hu]
          exact quiet_preserved (hat t0 (List.mem_cons_self _ _))
            (fun t ht => hat t (List.mem_cons_of_mem _ ht)) hq0 hm
        · refine quiet_of_synth hsy (fun t ht => ?_) harr1
          rcases mergeFrom_origin _ _ _ (Nat.le_refl _) hm t ht with hin | hsy2
          · exact (hat2 t hin).1
          · obtain ⟨c1, c2, r, hd, _⟩ := mergedText_of_synth hsy2
            rw [hd]; simp
      rw [mergeFrom_cons, headStep_of_quiet hq]
      simp [hrec]

/-- C1, as the code has it. For a sequence of primitive tokens of the shape the
raw scanner produces (each text is one of the nine mapped punctuation characters
or a non-empty word) on which `peepholer` succeeds, running `peepholer` on the
output returns the output unchanged, provided no `TokenTypeArray` token of the
output has two or more tokens after it. -/
theorem peepholer_idempotent_without_array_prefix (ts out : List Token)
    (hprim : ∀ t ∈ ts, isPrimitiveText t.Text = true)
    (h : peepholer ts = .returned (some out, none))
    (harr : noArrayBeforeLastTwo out = true) :
    peepholer out = .returned (some out, none) := by
  have hm := mergeFrom_idempotent ts.length ts out (Nat.le_refl _)
    (fun t ht => atomic_of_isPrimitiveText (hprim t ht)) (peepholer_returned h) harr
  simp [peepholer_eq, hm]

theorem peepholer_idempotent_without_array_prefix_witness :
    peepholer [⟨1, 1, "a", TokenSymbol, none⟩, ⟨1, 3, "||", TokenLogicalOr, none⟩,
        ⟨1, 6, "[1]", TokenTypeArray, some 1⟩, ⟨1, 9, "b", TokenSymbol, none⟩]
      = .returned (some [⟨1, 1, "a", TokenSymbol, none⟩, ⟨1, 3, "||", TokenLogicalOr, none⟩,
          ⟨1, 6, "[1]", TokenTypeArray, some 1⟩, ⟨1, 9, "b", TokenSymbol, none⟩], none) :=
  peepholer_idempotent_without_array_prefix
    [⟨1, 1, "a", TokenSymbol, none⟩, ⟨1, 3, "|", TokenBitwiseOr, none⟩,
     ⟨1, 4, "|", TokenBitwiseOr, none⟩, ⟨1, 6, "[", TokenLeftBracket, none⟩,
     ⟨1, 7, "1", TokenNumber, none⟩, ⟨1, 8, "]", TokenRightBracket, none⟩,
     ⟨1, 9, "b", TokenSymbol, none⟩]
    [⟨1, 1, "a", TokenSymbol, none⟩, ⟨1, 3, "||", TokenLogicalOr, none⟩,
     ⟨1, 6, "[1]", TokenTypeArray, some 1⟩, ⟨1, 9, "b", TokenSymbol, none⟩]
    (by decide) (by decide) (by decide)

/-- C1 as stated fails: the primitive tokens `[`, `1`, `]`, `a`, `b` are merged
into `[1]`, `a`, `b`; a second pass finds that the text `[1]ab` starts like an
array type and merges the three tokens into one. -/
theorem peepholer_not_idempotent :
    (∀ t ∈ [(⟨1, 1, "[", TokenLeftBracket, none⟩ : Token), ⟨1, 2, "1", TokenNumber, none⟩,
        ⟨1, 3, "]", TokenRightBracket, none⟩, ⟨1, 5, "a", TokenSymbol, none⟩,
        ⟨1, 7, "b", TokenSymbol, none⟩], isPrimitiveText t.Text = true) ∧
    peepholer [⟨1, 1, "[", TokenLeftBracket, none⟩, ⟨1, 2, "1", TokenNumber, none⟩,
        ⟨1, 3, "]", TokenRightBracket, none⟩, ⟨1, 5, "a", TokenSymbol, none⟩,
        ⟨1, 7, "b", TokenSymbol, none⟩]
      = .returned (some [⟨1, 1, "[1]", TokenTypeArray, some 1⟩, ⟨1, 5, "a", TokenSymbol, none⟩,
          ⟨1, 7, "b", TokenSymbol, none⟩], none) ∧
    peepholer [⟨1, 1, "[1]", TokenTypeArray, some 1⟩, ⟨1, 5, "a", TokenSymbol, none⟩,
        ⟨1, 7, "b", TokenSymbol, none⟩]
      = .returned (some [⟨1, 1, "[1]ab", TokenTypeArray, some 1⟩], none) ∧
    peepholer [⟨1, 1, "[1]", TokenTypeArray, some 1⟩, ⟨1, 5, "a", TokenSymbol, none⟩,
        ⟨1, 7, "b", TokenSymbol, none⟩]
      ≠ .returned (some [⟨1, 1, "[1]", TokenTypeArray, some 1⟩, ⟨1, 5, "a", TokenSymbol, none⟩,
          ⟨1, 7, "b", TokenSymbol, none⟩], none) := by
  decide

/-! ## Renderings of different variants -/

theorem take_lead_of_ne_name (a : TypeNode) (h : a.variant ≠ .name) :
    a.String.data.take 4 = a.variant.lead := by
  cases a with
  | TypeNodeName n => exact absurd rfl h
  | TypeNodeMap k v => simp [TypeNode.String, TypeNode.variant, Variant.lead]
  | TypeNodeStruct f => simp [TypeNode.String, TypeNode.variant, Variant.lead]
  | TypeNodeField n c => simp [TypeNode.String, TypeNode.variant, Variant.lead]
  | TypeNodeArray e n => simp [TypeNode.String, TypeNode.variant, Variant.lead]
  | TypeNodeSlice e => simp [TypeNode.String, TypeNode.variant, Variant.lead]
  | TypeNodeInt => rfl
  | TypeNodeFloat => rfl
  | TypeNodeBool => rfl
  | TypeNodeString => rfl

theorem lead_injective (v w : Variant) (hv : v ≠ .name) (hw : w ≠ .name)
    (h : v.lead = w.lead) : v = w := by
  cases v <;> cases w <;>
    first
    | rfl
    | exact absurd rfl hv
    | exact absurd rfl hw
    | (simp [Variant.lead] at h)

/-- C11, as the code has it. Two type nodes of different variants, neither of
them a name, have different renderings. A name renders as its identifier, which
may be the rendering of any other node. -/
theorem rendering_distinguishes_variants (a b : TypeNode)
    (hab : a.variant ≠ b.variant) (ha : a.variant ≠ .name) (hb : b.variant ≠ .name) :
    a.String ≠ b.String := by
  intro h
  apply hab
  apply lead_injective _ _ ha hb
  rw [← take_lead_of_ne_name a ha, ← take_lead_of_ne_name b hb, h]

theorem rendering_distinguishes_variants_witness :
    (TypeNode.TypeNodeStruct [("f", .TypeNodeInt)]).String ≠ TypeNode.TypeNodeString.String :=
  rendering_distinguishes_variants (.TypeNodeStruct [("f", .TypeNodeInt)]) .TypeNodeString
    (by decide) (by decide) (by decide)

/-- C11 as stated fails: the name `INT` and the scalar `Int` are nodes of
different variants with the same rendering. -/
theorem name_renders_like_int :
    (TypeNode.TypeNodeName "INT").variant ≠ TypeNode.TypeNodeInt.variant ∧
    (TypeNode.TypeNodeName "INT").String = TypeNode.TypeNodeInt.String := by
  decide

/-! ## Struct rendering -/

/-- C17, on the failing input. A struct whose first visited field name is empty
renders without the separator after it: the fields `""` and `b` give `STRUCT(b)`,
where joining the names with `, ` gives `STRUCT(, b)`. -/
theorem struct_rendering_drops_separator :
    (TypeNode.TypeNodeStruct [("", .TypeNodeInt), ("b", .TypeNodeBool)]).String = "STRUCT(b)" ∧
    structReference ["", "b"] = "STRUCT(, b)" ∧
    (TypeNode.TypeNodeStruct [("", .TypeNodeInt), ("b", .TypeNodeBool)]).String
      ≠ structReference ["", "b"] := by
  decide

/-! ## Token positions -/

/-- C12, on the failing input. For the one-character input `(`, whose token
starts at line 1, column 1, `scan` records line 1, column 2: the position
after the token, as `sx.Pos()` reports it. -/
theorem scan_records_position_after_token :
    scan [unitStartingAt 40 "(" 1 1]
      = .returned (some [{ Line := 1, Column := 2, Text := "(", Id := TokenLeftParen }], none) := by
  decide

/-! ## Texts and lengths -/

/-- The token an iteration pushes has the texts of the tokens it consumes. -/
theorem headStep_text {t0 : Token} {rest : List Token} {t : Token} {k : Nat}
    (h : headStep t0 rest = .returned (t, k)) :
    t.Text ++ concatText (rest.drop (k - 1)) = concatText (t0 :: rest) := by
  match rest, h with
  | [], h =>
    simp only [headStep, Outcome.returned.injEq, Prod.mk.injEq] at h
    simp [← h.1, ← h.2, concatText]
  | [t1], h =>
    simp only [headStep] at h
    rcases rule2_cases t0 t1 with ⟨h2, _⟩ | ⟨u, h2, _, _, _, hx⟩
    · rw [h2] at h
      simp only [Outcome.returned.injEq, Prod.mk.injEq] at h
      simp [← h.1, ← h.2, concatText]
    · rw [h2] at h
      simp only [Outcome.returned.injEq, Prod.mk.injEq] at h
      simp [← h.1, ← h.2, concatText, hx, String.append_assoc]
  | t1 :: t2 :: r, h =>
    simp only [headStep] at h
    cases h3 : rule3 t0 t1 t2 with
    | returned o =>
      rw [h3] at h
      simp only [Outcome.bind_returned] at h
      rcases rule3_returned h3 with ⟨ho, _⟩ | ⟨u, ho, _, _, _, hx⟩
      · rw [ho] at h
        simp only at h
        rcases rule2_cases t0 t1 with ⟨h2, _⟩ | ⟨u, h2, _, _, _, hx⟩
        · rw [h2] at h
          simp only [Outcome.returned.injEq, Prod.mk.injEq] at h
          simp [← h.1, ← h.2, concatText]
        · rw [h2] at h
          simp only [Outcome.returned.injEq, Prod.mk.injEq] at h
          simp [← h.1, ← h.2, concatText, hx, String.append_assoc]
      · rw [ho] at h
        simp only [Outcome.returned.injEq, Prod.mk.injEq] at h
        simp [← h.1, ← h.2, concatText, hx, String.append_assoc]
    | panicked v => rw [h3] at h; simp at h
    | outOfFuel => rw [h3] at h; simp at h

theorem mergeFrom_text_and_length :
    ∀ (n : Nat) (ts out : List Token), ts.length ≤ n → mergeFrom ts = .returned out →
      concatText out = concatText ts ∧ out.length ≤ ts.length ∧ ts.length ≤ 3 * out.length := by
  intro n
  induction n with
  | zero =>
    intro ts out hn h
    have : ts = [] := List.length_eq_zero.mp (by omega)
    rw [this, mergeFrom_nil] at h
    simp only [Outcome.returned.injEq] at h
    rw [this, ← h]
    simp
  | succ n ih =>
    intro ts out hn h
    match ts, hn, h with
    | [], _, h =>
      rw [mergeFrom_nil] at h
      simp only [Outcome.returned.injEq] at h
      rw [← h]
      simp
    | t0 :: rest, hn, h =>
      obtain ⟨u, k, out2, hs, hm, e⟩ := mergeFrom_cons_returned h
      obtain ⟨hk, hkle⟩ := headStep_consumed hs
      have hlen : (rest.drop (k - 1)).length ≤ n := by
        simp only [List.length_drop, List.length_cons] at hn ⊢
        omega
      obtain ⟨htxt, hle, hge⟩ := ih _ _ hlen hm
      rw [e]
      refine ⟨?_, ?_, ?_⟩
      · rw [← headStep_text hs, ← htxt]
        rfl
      · simp only [List.length_cons, List.length_drop] at hle ⊢
        omega
      · simp only [List.length_cons, List.length_drop] at hge ⊢
        omega

/-- C19. When `peepholer` succeeds, the texts of its output tokens,
concatenated in order, are the texts of the input tokens concatenated in order:
merging drops, repeats and reorders no text. -/
theorem peepholer_text_preservation (ts out : List Token)
    (h : peepholer ts = .returned (some out, none)) :
    concatText out = concatText ts :=
  (mergeFrom_text_and_length ts.length ts out (Nat.le_refl _) (peepholer_returned h)).1

theorem peepholer_text_preservation_witness :
    concatText [⟨1, 1, "[map]", TokenTypeMap, none⟩, ⟨1, 6, "||", TokenLogicalOr, none⟩]
      = concatText [⟨1, 1, "[", TokenLeftBracket, none⟩, ⟨1, 2, "map", TokenSymbol, none⟩,
          ⟨1, 5, "]", TokenRightBracket, none⟩, ⟨1, 6, "|", TokenBitwiseOr, none⟩,
          ⟨1, 7, "|", TokenBitwiseOr, none⟩] :=
  peepholer_text_preservation
    [⟨1, 1, "[", TokenLeftBracket, none⟩, ⟨1, 2, "map", TokenSymbol, none⟩,
     ⟨1, 5, "]", TokenRightBracket, none⟩, ⟨1, 6, "|", TokenBitwiseOr, none⟩,
     ⟨1, 7, "|", TokenBitwiseOr, none⟩]
    [⟨1, 1, "[map]", TokenTypeMap, none⟩, ⟨1, 6, "||", TokenLogicalOr, none⟩] (by decide)

/-- An iteration that is entered and runs to its end moves the cursor forward by
one, two or three, not beyond the end, and pushes one token. -/
theorem peepholerIteration_advances {tokens : List Token} {i i2 : Nat}
    {result result2 : List Token} (hle : (i : Int) ≤ (tokens.length : Int) - 1)
    (h : peepholerIteration tokens ((tokens.length : Int) - 1) i result
      = .returned (i2, result2)) :
    (i2 = i + 1 ∨ i2 = i + 2 ∨ i2 = i + 3) ∧ i2 ≤ tokens.length ∧
      result2.length = result.length + 1 := by
  have hi : i < tokens.length := by omega
  have hd : tokens.drop i = tokens[i] :: tokens.drop (i + 1) := List.drop_eq_getElem_cons hi
  rw [peepholerIteration_eq tokens i result _ _ hd] at h
  cases hs : headStep tokens[i] (tokens.drop (i + 1)) with
  | returned p =>
    obtain ⟨t, k⟩ := p
    rw [hs] at h
    simp only [Outcome.bind_returned, Outcome.returned.injEq, Prod.mk.injEq] at h
    obtain ⟨hk, hkle⟩ := headStep_consumed hs
    simp only [List.length_drop] at hkle
    refine ⟨?_, ?_, ?_⟩
    · omega
    · omega
    · rw [← h.2]; simp
  | panicked v => rw [hs] at h; simp at h
  | outOfFuel => rw [hs] at h; simp at h

/-- C18. The loop of `peepholer` terminates on every token sequence: each
iteration that is entered and completes moves the cursor forward by 1, 2 or 3
(the post statement `i += 0` adds nothing), so the call returns or panics within
`len(ts)` iterations; and when it succeeds, the output has at most `len(ts)`
tokens and at least a third of `len(ts)`, rounded up. -/
theorem peepholer_terminates_and_never_grows (ts : List Token) :
    peepholer ts ≠ .outOfFuel ∧
    (∀ (i i2 : Nat) (result result2 : List Token), (i : Int) ≤ (ts.length : Int) - 1 →
      peepholerIteration ts ((ts.length : Int) - 1) i result = .returned (i2, result2) →
      i2 + 0 = i + 1 ∨ i2 + 0 = i + 2 ∨ i2 + 0 = i + 3) ∧
    (∀ out, peepholer ts = .returned (some out, none) →
      out.length ≤ ts.length ∧ (ts.length + 2) / 3 ≤ out.length) := by
  refine ⟨peepholer_ne_outOfFuel ts, ?_, ?_⟩
  · intro i i2 result result2 hle h
    simpa using (peepholerIteration_advances hle h).1
  · intro out h
    have := mergeFrom_text_and_length ts.length ts out (Nat.le_refl _) (peepholer_returned h)
    refine ⟨this.2.1, ?_⟩
    omega

theorem peepholer_terminates_and_never_grows_witness :
    ((2 + 0 = 0 + 1 ∨ 2 + 0 = 0 + 2 ∨ 2 + 0 = 0 + 3) ∧
      [(⟨1, 1, "[]", TokenTypeSlice, none⟩ : Token), ⟨1, 3, "x", TokenSymbol, none⟩].length
        ≤ [(⟨1, 1, "[", TokenLeftBracket, none⟩ : Token), ⟨1, 2, "]", TokenRightBracket, none⟩,
            ⟨1, 3, "x", TokenSymbol, none⟩].length) ∧
      ([(⟨1, 1, "[", TokenLeftBracket, none⟩ : Token), ⟨1, 2, "]", TokenRightBracket, none⟩,
            ⟨1, 3, "x", TokenSymbol, none⟩].length + 2) / 3
        ≤ [(⟨1, 1, "[]", TokenTypeSlice, none⟩ : Token), ⟨1, 3, "x", TokenSymbol, none⟩].length :=
  ⟨⟨(peepholer_terminates_and_never_grows
      [⟨1, 1, "[", TokenLeftBracket, none⟩, ⟨1, 2, "]", TokenRightBracket, none⟩,
       ⟨1, 3, "x", TokenSymbol, none⟩]).2.1 0 2 [] [⟨1, 1, "[]", TokenTypeSlice, none⟩]
      (by decide) (by decide),
    ((peepholer_terminates_and_never_grows
      [⟨1, 1, "[", TokenLeftBracket, none⟩, ⟨1, 2, "]", TokenRightBracket, none⟩,
       ⟨1, 3, "x", TokenSymbol, none⟩]).2.2
      [⟨1, 1, "[]", TokenTypeSlice, none⟩, ⟨1, 3, "x", TokenSymbol, none⟩] (by decide)).1⟩,
   ((peepholer_terminates_and_never_grows
      [⟨1, 1, "[", TokenLeftBracket, none⟩, ⟨1, 2, "]", TokenRightBracket, none⟩,
       ⟨1, 3, "x", TokenSymbol, none⟩]).2.2
      [⟨1, 1, "[]", TokenTypeSlice, none⟩, ⟨1, 3, "x", TokenSymbol, none⟩] (by decide)).2⟩

/-! ## Kinds that the scanner cannot produce -/

theorem convertId_mem_range (r : Int) :
    convertId r ∈ [TokenSymbol, TokenNumber, TokenLeftParen, TokenRightParen, TokenMultiply,
      TokenAdd, TokenLessThan, TokenGreaterThan, TokenLeftBracket, TokenRightBracket,
      TokenBitwiseOr, TokenInvalid] := by
  unfold convertId
  repeat' split
  all_goals decide

theorem convertId_code_cases (c : Int) :
    c = -2 ∨ c = -3 ∨ c = 40 ∨ c = 41 ∨ c = 42 ∨ c = 43 ∨ c = 60 ∨ c = 62 ∨ c = 91 ∨
      c = 93 ∨ c = 124 ∨ convertId c = TokenInvalid := by
  unfold convertId
  repeat' split
  all_goals simp [*]

/-- A unit that `scan` accepts and whose text is as the tokenizer guarantees has
the text of a primitive token. -/
theorem isPrimitiveText_of_unitTextOk {u : RawUnit} (hok : unitTextOk u = true)
    (hid : convertId u.code ≠ TokenInvalid) : isPrimitiveText u.text = true := by
  have hpunct : ∀ (k : Int) (c : Char), u.code = k → k ≠ -2 → k ≠ -3 → 0 ≤ k →
      Char.ofNat k.toNat = c → isPrimitiveText (String.mk [c]) = true →
      isPrimitiveText u.text = true := by
    intro k c hk h2 h3 h0 hc hp
    have htext : u.text = String.mk [c] := by
      simp only [unitTextOk, hk, h2, h3, or_self, if_false, h0, if_true, hc,
        decide_eq_true_eq] at hok
      exact String.ext hok
    rw [htext]; exact hp
  rcases convertId_code_cases u.code with h | h | h | h | h | h | h | h | h | h | h | h
  · simp only [unitTextOk, h, true_or, if_true] at hok
    simp only [isPrimitiveText, hok, Bool.or_true]
  · simp only [unitTextOk, h, or_true, if_true] at hok
    simp only [isPrimitiveText, hok, Bool.or_true]
  · exact hpunct 40 '(' h (by decide) (by decide) (by decide) (by decide) (by decide)
  · exact hpunct 41 ')' h (by decide) (by decide) (by decide) (by decide) (by decide)
  · exact hpunct 42 '*' h (by decide) (by decide) (by decide) (by decide) (by decide)
  · exact hpunct 43 '+' h (by decide) (by decide) (by decide) (by decide) (by decide)
  · exact hpunct 60 '<' h (by decide) (by decide) (by decide) (by decide) (by decide)
  · exact hpunct 62 '>' h (by decide) (by decide) (by decide) (by decide) (by decide)
  · exact hpunct 91 '[' h (by decide) (by decide) (by decide) (by decide) (by decide)
  · exact hpunct 93 ']' h (by decide) (by decide) (by decide) (by decide) (by decide)
  · exact hpunct 124 '|' h (by decide) (by decide) (by decide) (by decide) (by decide)
  · exact absurd h hid

/-- The tokens of a successful raw scan, each with the unit it was built from. -/
theorem scanLoop_units (sx : List RawUnit) :
    ∀ (tokens : List Token) (r : Option (List Token) × Option String),
      scanLoop sx tokens = .returned r →
      (∃ e, r = (none, some e)) ∨
      (∃ more, r = (some (tokens ++ more), none) ∧
        ∀ t ∈ more, ∃ u ∈ sx, convertId u.code ≠ TokenInvalid ∧ t.Text = u.text ∧
          t.Id = convertId u.code) := by
  induction sx with
  | nil =>
    intro tokens r h
    simp only [scanLoop, Outcome.returned.injEq] at h
    exact Or.inr ⟨[], by simp [← h], by simp⟩
  | cons u rest ih =>
    intro tokens r h
    rw [scanLoop] at h
    simp only at h
    split_ifs at h with h1 h2
    · simp only [Outcome.returned.injEq] at h
      exact Or.inr ⟨[], by simp [← h], by simp⟩
    · simp only [Outcome.returned.injEq] at h
      exact Or.inl ⟨_, h.symm⟩
    · rcases ih _ r h with he | ⟨more, hr, hall⟩
      · exact Or.inl he
      · refine Or.inr ⟨{ Line := u.posLine, Column := u.posColumn, Text := u.text,
                         Id := convertId u.code } :: more, by rw [hr]; simp, ?_⟩
        intro t ht
        rcases List.mem_cons.mp ht with e | hin
        · exact ⟨u, List.mem_cons_self _ _, h2, by rw [e], by rw [e]⟩
        · obtain ⟨v, hv, hrest⟩ := hall t hin
          exact ⟨v, List.mem_cons_of_mem _ hv, hrest⟩

theorem mem_concatText {c : Char} :
    ∀ {ts : List Token}, c ∈ (concatText ts).data → ∃ t ∈ ts, c ∈ t.Text.data := by
  intro ts
  induction ts with
  | nil => intro h; simp [concatText] at h
  | cons t rest ih =>
    intro h
    simp only [concatText, String.data_append, List.mem_append] at h
    rcases h with h | h
    · exact ⟨t, List.mem_cons_self _ _, h⟩
    · obtain ⟨u, hu, hc⟩ := ih h
      exact ⟨u, List.mem_cons_of_mem _ hu, hc⟩

theorem concatText_mem {c : Char} {t : Token} :
    ∀ {ts : List Token}, t ∈ ts → c ∈ t.Text.data → c ∈ (concatText ts).data := by
  intro ts
  induction ts with
  | nil => intro h; simp at h
  | cons u rest ih =>
    intro h hc
    simp only [concatText, String.data_append, List.mem_append]
    rcases List.mem_cons.mp h with e | hin
    · left; rw [← e]; exact hc
    · right; exact ih hin hc

theorem range_not_unreachable (x : TokenId)
    (h : x ∈ [TokenSymbol, TokenNumber, TokenLeftParen, TokenRightParen, TokenMultiply,
      TokenAdd, TokenLessThan, TokenGreaterThan, TokenLeftBracket, TokenRightBracket,
      TokenBitwiseOr, TokenInvalid]) :
    x ∉ [TokenEquals, TokenNotEquals, TokenGreaterOrEqualThan, TokenLessOrEqualThan,
      TokenSubtract, TokenExponent, TokenMod, TokenBitwiseAnd] ∧ x ≠ TokenLogicalAnd := by
  cases x <;> first | decide | exact absurd h (by decide)

theorem synth_not_unreachable {t : Token} (h : Synth t) :
    t.Id ∉ [TokenEquals, TokenNotEquals, TokenGreaterOrEqualThan, TokenLessOrEqualThan,
      TokenSubtract, TokenExponent, TokenMod, TokenBitwiseAnd] := by
  rcases h with ⟨_, hi, _⟩ | ⟨_, hi, _⟩ | ⟨_, hi, _⟩ | ⟨_, hi, _⟩ | ⟨_, hi, _⟩ <;>
    (rw [hi]; decide)

/-- C13. In the output of a successful `Scan` no token has kind `TokenEquals`,
`TokenNotEquals`, `TokenGreaterOrEqualThan`, `TokenLessOrEqualThan`,
`TokenSubtract`, `TokenExponent`, `TokenMod` or `TokenBitwiseAnd`; and, the texts
of the units being what the tokenizer yields (words for identifiers and integer
literals, the character itself for a character code), none has kind
`TokenLogicalAnd`, because no accepted unit has a text containing `&`. -/
theorem Scan_unreachable_kinds (sx : List RawUnit) (out : List Token)
    (h : Scan sx = .returned (some out, none)) (t : Token) (ht : t ∈ out) :
    t.Id ∉ [TokenEquals, TokenNotEquals, TokenGreaterOrEqualThan, TokenLessOrEqualThan,
      TokenSubtract, TokenExponent, TokenMod, TokenBitwiseAnd] ∧
    ((∀ u ∈ sx, unitTextOk u = true) → t.Id ≠ TokenLogicalAnd) := by
  obtain ⟨raw, hscan, hm, _⟩ := Scan_returned h
  have hunits : ∀ r ∈ raw, ∃ u ∈ sx, convertId u.code ≠ TokenInvalid ∧ r.Text = u.text ∧
      r.Id = convertId u.code := by
    rcases scanLoop_units sx [] _ hscan with ⟨e, he⟩ | ⟨more, hr, hall⟩
    · simp at he
    · simp only [List.nil_append, Prod.mk.injEq, Option.some.injEq, and_true] at hr
      rw [hr]; exact hall
  rcases mergeFrom_origin raw.length raw out (Nat.le_refl _) hm t ht with hin | hsy
  · obtain ⟨u, _, _, _, hid⟩ := hunits t hin
    have hr := range_not_unreachable t.Id (by rw [hid]; exact convertId_mem_range _)
    exact ⟨hr.1, fun _ => hr.2⟩
  · refine ⟨synth_not_unreachable hsy, fun hok hand => ?_⟩
    rcases hsy with ⟨_, hi, _⟩ | ⟨_, hi, _⟩ | ⟨_, hi, _⟩ | ⟨htx, _, _⟩ | ⟨_, hi, _⟩
    · rw [hi] at hand; exact absurd hand (by decide)
    · rw [hi] at hand; exact absurd hand (by decide)
    · rw [hi] at hand; exact absurd hand (by decide)
    · have hamp : '&' ∈ t.Text.data := by rw [htx]; decide
      have hcat := concatText_mem ht hamp
      rw [(mergeFrom_text_and_length raw.length raw out (Nat.le_refl _) hm).1] at hcat
      obtain ⟨r, hr, hc⟩ := mem_concatText hcat
      obtain ⟨u, hu, huid, hutext, _⟩ := hunits r hr
      have hatom := atomic_of_isPrimitiveText (isPrimitiveText_of_unitTextOk (hok u hu) huid)
      rw [hutext] at hc
      exact (hatom.2 '&' hc (Or.inr (Or.inr (Or.inr rfl)))).2 rfl
    · rw [hi] at hand; exact absurd hand (by decide)

theorem Scan_unreachable_kinds_witness :
    (⟨1, 3, "||", TokenLogicalOr, none⟩ : Token).Id
        ∉ [TokenEquals, TokenNotEquals, TokenGreaterOrEqualThan, TokenLessOrEqualThan,
          TokenSubtract, TokenExponent, TokenMod, TokenBitwiseAnd] ∧
      (⟨1, 3, "||", TokenLogicalOr, none⟩ : Token).Id ≠ TokenLogicalAnd :=
  ⟨(Scan_unreachable_kinds [unitStartingAt 124 "|" 1 2, unitStartingAt 124 "|" 1 3]
      [⟨1, 3, "||", TokenLogicalOr, none⟩] (by decide)
      ⟨1, 3, "||", TokenLogicalOr, none⟩ (by decide)).1,
   (Scan_unreachable_kinds [unitStartingAt 124 "|" 1 2, unitStartingAt 124 "|" 1 3]
      [⟨1, 3, "||", TokenLogicalOr, none⟩] (by decide)
      ⟨1, 3, "||", TokenLogicalOr, none⟩ (by decide)).2 (by decide)⟩

/-! ## The array rule on texts with a tail -/

/-- The pattern is only anchored at the start of the text: given the tokens
`[1]`, `a`, `b` (or `[`, `1`, `]x`), `peepholer` pushes a `TokenTypeArray` token
whose text, `[1]ab` (or `[1]x`), is not exactly a `[`, digits and a `]`. Tokens
with such texts do not come out of the raw scan. -/
theorem array_rule_accepts_trailing_text :
    peepholer [⟨1, 1, "[1]", TokenTypeArray, some 1⟩, ⟨1, 5, "a", TokenSymbol, none⟩,
        ⟨1, 7, "b", TokenSymbol, none⟩]
      = .returned (some [⟨1, 1, "[1]ab", TokenTypeArray, some 1⟩], none) ∧
    isExactArrayText "[1]ab" = false ∧
    peepholer [⟨1, 1, "[", TokenLeftBracket, none⟩, ⟨1, 2, "1", TokenNumber, none⟩,
        ⟨1, 3, "]x", TokenSymbol, none⟩]
      = .returned (some [⟨1, 1, "[1]x", TokenTypeArray, some 1⟩], none) ∧
    isExactArrayText "[1]x" = false ∧
    isExactArrayText "[1]" = true := by
  decide

/-! ## Falling through to the shorter windows -/

/-- A text other than `[map]` that the pattern does not match takes no
three-token case. -/
theorem not_fires3_of_regexp {s : String} (h1 : s ≠ "[map]")
    (h2 : arrayTypeRegexp s.data = none) : ¬ Fires3 s := by
  rintro (h | ⟨d, r, hne, hd, hx⟩)
  · exact h1 h
  · rw [hx, arrayTypeRegexp_of_digits d r hne hd] at h2
    simp at h2

theorem prependToken_peepholer (t : Token) (ts : List Token) :
    prependToken t (peepholer ts)
      = (mergeFrom ts).bind fun out => .returned (some (t :: out), none) := by
  rw [peepholer_eq]
  cases mergeFrom ts <;> simp [prependToken]

theorem peepholer_cons_of_headStep {t0 t : Token} {rest : List Token} {k : Nat}
    (h : headStep t0 rest = .returned (t, k)) :
    peepholer (t0 :: rest) = prependToken t (peepholer (rest.drop (k - 1))) := by
  rw [prependToken_peepholer, peepholer_eq, mergeFrom_cons, h]
  simp only [Outcome.bind_returned]
  cases mergeFrom (rest.drop (k - 1)) <;> simp

/-- C15. On `t0 :: t1 :: t2 :: rest`, when the text of the three-token window
is neither `[map]` nor matched by the array pattern: if the text of `t0` and
`t1` is `||`, `&&` or `[]`, `peepholer` returns the merged two-token token
followed by what it returns on `t2 :: rest`; otherwise it returns `t0` unchanged
followed by what it returns on `t1 :: t2 :: rest`. No input token is skipped. -/
theorem peepholer_fall_through (t0 t1 t2 : Token) (rest : List Token)
    (hmap : t0.Text ++ t1.Text ++ t2.Text ≠ "[map]")
    (harr : arrayTypeRegexp (t0.Text ++ t1.Text ++ t2.Text).data = none) :
    (t0.Text ++ t1.Text = "||" →
      peepholer (t0 :: t1 :: t2 :: rest)
        = prependToken { Line := t0.Line, Column := t0.Column, Text := "||",
                         Id := TokenLogicalOr, Value := none } (peepholer (t2 :: rest))) ∧
    (t0.Text ++ t1.Text = "&&" →
      peepholer (t0 :: t1 :: t2 :: rest)
        = prependToken { Line := t0.Line, Column := t0.Column, Text := "&&",
                         Id := TokenLogicalAnd, Value := none } (peepholer (t2 :: rest))) ∧
    (t0.Text ++ t1.Text = "[]" →
      peepholer (t0 :: t1 :: t2 :: rest)
        = prependToken { Line := t0.Line, Column := t0.Column, Text := "[]",
                         Id := TokenTypeSlice, Value := none } (peepholer (t2 :: rest))) ∧
    (t0.Text ++ t1.Text ≠ "||" → t0.Text ++ t1.Text ≠ "&&" → t0.Text ++ t1.Text ≠ "[]" →
      peepholer (t0 :: t1 :: t2 :: rest)
        = prependToken t0 (peepholer (t1 :: t2 :: rest))) := by
  have hr3 := rule3_of_not_fires (not_fires3_of_regexp hmap harr)
  refine ⟨fun h => ?_, fun h => ?_, fun h => ?_, fun h1 h2 h3 => ?_⟩
  · exact peepholer_cons_of_headStep (k := 2) (by simp [headStep, hr3, rule2, h])
  · exact peepholer_cons_of_headStep (k := 2) (by simp [headStep, hr3, rule2, h])
  · exact peepholer_cons_of_headStep (k := 2) (by simp [headStep, hr3, rule2, h])
  · exact peepholer_cons_of_headStep (k := 1)
      (by simp [headStep, hr3, rule2, h1, h2, h3])

theorem peepholer_fall_through_witness :
    (peepholer [⟨1, 1, "[", TokenLeftBracket, none⟩, ⟨1, 2, "]", TokenRightBracket, none⟩,
        ⟨1, 3, "x", TokenSymbol, none⟩]
      = prependToken ⟨1, 1, "[]", TokenTypeSlice, none⟩
          (peepholer [⟨1, 3, "x", TokenSymbol, none⟩])) ∧
    (peepholer [⟨1, 1, "[", TokenLeftBracket, none⟩, ⟨1, 2, "a", TokenSymbol, none⟩,
        ⟨1, 3, "]", TokenRightBracket, none⟩]
      = prependToken ⟨1, 1, "[", TokenLeftBracket, none⟩
          (peepholer [⟨1, 2, "a", TokenSymbol, none⟩, ⟨1, 3, "]", TokenRightBracket, none⟩])) :=
  ⟨(peepholer_fall_through ⟨1, 1, "[", TokenLeftBracket, none⟩
      ⟨1, 2, "]", TokenRightBracket, none⟩ ⟨1, 3, "x", TokenSymbol, none⟩ []
      (by decide) (by decide)).2.2.1 (by decide),
   (peepholer_fall_through ⟨1, 1, "[", TokenLeftBracket, none⟩
      ⟨1, 2, "a", TokenSymbol, none⟩ ⟨1, 3, "]", TokenRightBracket, none⟩ []
      (by decide) (by decide)).2.2.2 (by decide) (by decide) (by decide)⟩

/-! ## Priority of the three-token window -/

/-- C16. At a cursor with three tokens left whose concatenated text matches a
three-token rule, the iteration never falls through to the two-token switch or
to the plain push, whatever the text of the first two tokens. When the text is
`[map]` it pushes the `TokenTypeMap` merge and moves the cursor by three. When
the text begins with `[`, digits, `]` it pushes the `TokenTypeArray` merge with
the decoded size and moves the cursor by three, unless the size is 0 or above
`maxInt`, in which case it panics. In short: it panics or pushes the
three-token merge at the position of the first token. -/
theorem peepholerIteration_three_token_priority (tokens : List Token) (i : Nat)
    (result : List Token) (t0 t1 t2 : Token)
    (h0 : tokens[i]? = some t0) (h1 : tokens[i + 1]? = some t1)
    (h2 : tokens[i + 2]? = some t2) :
    (t0.Text ++ t1.Text ++ t2.Text = "[map]" →
      peepholerIteration tokens ((tokens.length : Int) - 1) i result
        = .returned (i + 3,
            result ++ [(⟨t0.Line, t0.Column, "[map]", TokenTypeMap, none⟩ : Token)])) ∧
    (∀ d rest : List Char, (t0.Text ++ t1.Text ++ t2.Text).data = '[' :: (d ++ ']' :: rest) →
      d ≠ [] → (∀ c ∈ d, c.isDigit = true) →
      peepholerIteration tokens ((tokens.length : Int) - 1) i result
        = if maxInt < (decimalValue d : Int) then .panicked .atoiError
          else if decimalValue d = 0 then .panicked .nilValue
          else .returned (i + 3,
            result ++ [(⟨t0.Line, t0.Column, t0.Text ++ t1.Text ++ t2.Text, TokenTypeArray,
              some (decimalValue d : Int)⟩ : Token)])) ∧
    ((t0.Text ++ t1.Text ++ t2.Text = "[map]" ∨
        (arrayTypeRegexp (t0.Text ++ t1.Text ++ t2.Text).data).isSome = true) →
      (∃ v, peepholerIteration tokens ((tokens.length : Int) - 1) i result = .panicked v) ∨
      (∃ o : Token,
        peepholerIteration tokens ((tokens.length : Int) - 1) i result
          = .returned (i + 3, result ++ [o]) ∧
        (o.Id = TokenTypeMap ∨ o.Id = TokenTypeArray) ∧
        o.Text = t0.Text ++ t1.Text ++ t2.Text ∧ o.Line = t0.Line ∧ o.Column = t0.Column)) := by
  have hmap : t0.Text ++ t1.Text ++ t2.Text = "[map]" →
      peepholerIteration tokens ((tokens.length : Int) - 1) i result
        = .returned (i + 3,
            result ++ [(⟨t0.Line, t0.Column, "[map]", TokenTypeMap, none⟩ : Token)]) := by
    intro h
    rw [peepholerIteration_eq tokens i result _ _ (drop_of_window h0 h1 h2)]
    have hm : matchArrayTypePrefix "[map]" = .returned (false, -1) :=
      matchArrayTypePrefix_of_not not_arrayText_map
    simp [headStep, rule3, h, hm]
  have harr : ∀ d rest : List Char,
      (t0.Text ++ t1.Text ++ t2.Text).data = '[' :: (d ++ ']' :: rest) →
      d ≠ [] → (∀ c ∈ d, c.isDigit = true) →
      peepholerIteration tokens ((tokens.length : Int) - 1) i result
        = if maxInt < (decimalValue d : Int) then .panicked .atoiError
          else if decimalValue d = 0 then .panicked .nilValue
          else .returned (i + 3,
            result ++ [(⟨t0.Line, t0.Column, t0.Text ++ t1.Text ++ t2.Text, TokenTypeArray,
              some (decimalValue d : Int)⟩ : Token)]) := by
    intro d rest hs hne hd
    rw [peepholerIteration_eq tokens i result _ _ (drop_of_window h0 h1 h2)]
    have hm := matchArrayTypePrefix_of_digits _ d rest hne hd hs
    have hnm : t0.Text ++ t1.Text ++ t2.Text ≠ "[map]" := by
      intro e
      apply not_arrayText_map
      rw [← e]
      exact ⟨d, rest, hne, hd, hs⟩
    by_cases hov : maxInt < (decimalValue d : Int)
    · rw [if_pos hov] at hm ⊢
      simp only [headStep, rule3, hm, Outcome.bind_panicked]
    · rw [if_neg hov] at hm ⊢
      by_cases hz : decimalValue d = 0
      · rw [if_pos hz] at hm ⊢
        simp only [headStep, rule3, hm, Outcome.bind_panicked]
      · rw [if_neg hz] at hm ⊢
        simp [headStep, rule3, hm, hnm]
  refine ⟨hmap, harr, ?_⟩
  rintro (h | h)
  · right
    exact ⟨_, hmap h, Or.inl rfl, h.symm, rfl, rfl⟩
  · obtain ⟨d, hsome⟩ := Option.isSome_iff_exists.mp h
    obtain ⟨hne, hd, rest, hs⟩ := arrayTypeRegexp_some hsome
    have hiter := harr d rest hs hne hd
    by_cases hov : maxInt < (decimalValue d : Int)
    · rw [if_pos hov] at hiter
      exact Or.inl ⟨_, hiter⟩
    · rw [if_neg hov] at hiter
      by_cases hz : decimalValue d = 0
      · rw [if_pos hz] at hiter
        exact Or.inl ⟨_, hiter⟩
      · rw [if_neg hz] at hiter
        exact Or.inr ⟨_, hiter, Or.inr rfl, rfl, rfl, rfl⟩

theorem peepholerIteration_three_token_priority_witness :
    (peepholerIteration [⟨1, 1, "[", TokenLeftBracket, none⟩, ⟨1, 2, "7", TokenNumber, none⟩,
        ⟨1, 3, "]", TokenRightBracket, none⟩, ⟨1, 4, "x", TokenSymbol, none⟩] 3 0 []
      = .returned (3, [⟨1, 1, "[7]", TokenTypeArray, some 7⟩])) ∧
    (peepholerIteration [⟨1, 1, "[", TokenLeftBracket, none⟩, ⟨1, 2, "0", TokenNumber, none⟩,
        ⟨1, 3, "]", TokenRightBracket, none⟩, ⟨1, 4, "x", TokenSymbol, none⟩] 3 0 []
      = .panicked .nilValue) :=
  ⟨(peepholerIteration_three_token_priority
      [⟨1, 1, "[", TokenLeftBracket, none⟩, ⟨1, 2, "7", TokenNumber, none⟩,
       ⟨1, 3, "]", TokenRightBracket, none⟩, ⟨1, 4, "x", TokenSymbol, none⟩] 0 []
      ⟨1, 1, "[", TokenLeftBracket, none⟩ ⟨1, 2, "7", TokenNumber, none⟩
      ⟨1, 3, "]", TokenRightBracket, none⟩ (by decide) (by decide) (by decide)).2.1
      ['7'] [] (by decide) (by decide) (by decide),
   (peepholerIteration_three_token_priority
      [⟨1, 1, "[", TokenLeftBracket, none⟩, ⟨1, 2, "0", TokenNumber, none⟩,
       ⟨1, 3, "]", TokenRightBracket, none⟩, ⟨1, 4, "x", TokenSymbol, none⟩] 0 []
      ⟨1, 1, "[", TokenLeftBracket, none⟩ ⟨1, 2, "0", TokenNumber, none⟩
      ⟨1, 3, "]", TokenRightBracket, none⟩ (by decide) (by decide) (by decide)).2.1
      ['0'] [] (by decide) (by decide) (by decide)⟩

/-! ## The order of the two window checks -/

theorem not_fires2_of_fires3 {a b c : String} (h : Fires3 (a ++ b ++ c)) :
    ¬ Fires2 (a ++ b) := by
  intro h2
  obtain ⟨y0, y, hs, hy⟩ := fires3_shape h
  simp only [String.data_append] at hs
  rcases h2 with e | e | e
  · have hd := congrArg String.data e
    simp only [String.data_append] at hd
    rw [hd] at hs
    simp at hs
  · have hd := congrArg String.data e
    simp only [String.data_append] at hd
    rw [hd] at hs
    simp at hs
  · have hd := congrArg String.data e
    simp only [String.data_append] at hd
    rw [hd] at hs
    simp only [List.cons_append, List.nil_append, List.cons.injEq, true_and] at hs
    rcases hy with hy | hy
    · rw [← hs.1] at hy; exact absurd hy (by decide)
    · rw [← hs.1] at hy; exact absurd hy (by decide)

/-- One iteration with the checks in the other order, in terms of the tokens
from the cursor on: the same as with the order of the source. -/
theorem peepholerIterationTwoFirst_eq (tokens : List Token) (i : Nat) (result : List Token)
    (t0 : Token) (rest : List Token) (h : tokens.drop i = t0 :: rest) :
    peepholerIterationTwoFirst tokens ((tokens.length : Int) - 1) i result
      = (headStep t0 rest).bind fun p => .returned (i + p.2, result ++ [p.1]) := by
  have hlen := length_of_drop h
  have h0 : tokens[i]? = some t0 := by simpa using getElem?_of_drop h 0
  have h1 : tokens[i + 1]? = rest[0]? := by simpa using getElem?_of_drop h 1
  have h2 : tokens[i + 2]? = rest[1]? := by simpa using getElem?_of_drop h 2
  match rest, hlen, h1, h2 with
  | [], hlen, h1, h2 =>
    have e2 : ¬ ((i : Int) ≤ (tokens.length : Int) - 1 - 1) := by
      simp only [List.length_nil] at hlen; omega
    have e3 : ¬ ((i : Int) ≤ (tokens.length : Int) - 1 - 2) := by
      simp only [List.length_nil] at hlen; omega
    simp [peepholerIterationTwoFirst, index, headStep, e2, e3, h0]
  | [t1], hlen, h1, h2 =>
    have e2 : (i : Int) ≤ (tokens.length : Int) - 1 - 1 := by
      simp only [List.length_cons, List.length_nil] at hlen; omega
    have e3 : ¬ ((i : Int) ≤ (tokens.length : Int) - 1 - 2) := by
      simp only [List.length_cons, List.length_nil] at hlen; omega
    simp only [List.getElem?_cons_zero] at h1
    simp only [peepholerIterationTwoFirst, twoTokenBlock, index, headStep, rule2, e2, e3, h0,
      h1, decide_True, decide_False, Outcome.returned_bind, Outcome.pure_eq, if_true,
      if_false, Bool.false_eq_true]
    split_ifs <;> simp
  | t1 :: t2 :: rest2, hlen, h1, h2 =>
    have e2 : (i : Int) ≤ (tokens.length : Int) - 1 - 1 := by
      simp only [List.length_cons] at hlen; omega
    have e3 : (i : Int) ≤ (tokens.length : Int) - 1 - 2 := by
      simp only [List.length_cons] at hlen; omega
    simp only [List.getElem?_cons_zero] at h1
    simp only [List.getElem?_cons_succ, List.getElem?_cons_zero] at h2
    by_cases hf2 : Fires2 (t0.Text ++ t1.Text)
    · have hr3 : rule3 t0 t1 t2 = .returned none :=
        rule3_of_not_fires fun hf3 => not_fires2_of_fires3 hf3 hf2
      simp only [peepholerIterationTwoFirst, twoTokenBlock, index, headStep, hr3, rule2,
        e2, e3, h0, h1, h2, decide_True, Outcome.returned_bind, Outcome.bind_returned,
        Outcome.pure_eq, if_true]
      rcases hf2 with e | e | e <;> simp [e]
    · have hn := hf2
      simp only [Fires2, not_or] at hn
      simp only [peepholerIterationTwoFirst, threeTokenBlock, twoTokenBlock, index, headStep,
        rule3, rule2, e2, e3, h0, h1, h2, hn.1, hn.2.1, hn.2.2, decide_True,
        Outcome.returned_bind, Outcome.pure_eq, if_true, if_false]
      cases hm : matchArrayTypePrefix (t0.Text ++ t1.Text ++ t2.Text) with
      | returned r =>
        obtain ⟨m, n⟩ := r
        simp only [Outcome.returned_bind, Outcome.bind_returned, Outcome.pure_eq]
        split_ifs <;> simp
      | panicked v => simp
      | outOfFuel => simp

theorem peepholerLoopTwoFirst_eq (tokens : List Token) :
    ∀ (fuel i : Nat) (result : List Token),
      peepholerLoopTwoFirst tokens ((tokens.length : Int) - 1) fuel i result
        = peepholerLoop tokens ((tokens.length : Int) - 1) fuel i result := by
  intro fuel
  induction fuel with
  | zero => intro i result; rfl
  | succ fuel ih =>
    intro i result
    rw [peepholerLoopTwoFirst, peepholerLoop]
    by_cases hg : (i : Int) ≤ (tokens.length : Int) - 1
    · have hi : i < tokens.length := by omega
      have hd : tokens.drop i = tokens[i] :: tokens.drop (i + 1) := List.drop_eq_getElem_cons hi
      rw [if_pos hg, if_pos hg, peepholerIterationTwoFirst_eq tokens i result _ _ hd,
        peepholerIteration_eq tokens i result _ _ hd]
      cases headStep tokens[i] (tokens.drop (i + 1)) with
      | returned p => simp only [Outcome.bind_returned]; exact ih _ _
      | panicked v => rfl
      | outOfFuel => rfl
    · rw [if_neg hg, if_neg hg]

/-- C20. A three-token text that equals `[map]` or is accepted by
`matchArrayTypePrefix` never begins with a two-token text among `||`, `&&`,
`[]`; and `peepholer` with the two window checks tried in the other order
(`peepholerTwoFirst`) has the same outcome as `peepholer` on every input. -/
theorem window_rules_never_overlap :
    (∀ t0 t1 t2 : Token,
      (t0.Text ++ t1.Text ++ t2.Text = "[map]" ∨
        ∃ n, matchArrayTypePrefix (t0.Text ++ t1.Text ++ t2.Text) = .returned (true, n)) →
      t0.Text ++ t1.Text ≠ "||" ∧ t0.Text ++ t1.Text ≠ "&&" ∧ t0.Text ++ t1.Text ≠ "[]") ∧
    (∀ tokens : List Token, peepholerTwoFirst tokens = peepholer tokens) := by
  constructor
  · intro t0 t1 t2 h
    have hf3 : Fires3 (t0.Text ++ t1.Text ++ t2.Text) := by
      rcases h with h | ⟨n, h⟩
      · exact Or.inl h
      · rcases matchArrayTypePrefix_returned h with ⟨hf, _⟩ | ⟨_, ha, _⟩
        · simp at hf
        · exact Or.inr ha
    have hn := not_fires2_of_fires3 hf3
    simp only [Fires2, not_or] at hn
    exact hn
  · intro tokens
    exact peepholerLoopTwoFirst_eq tokens tokens.length 0 []

theorem window_rules_never_overlap_witness :
    ("[" : String) ++ "7" ≠ "||" ∧ ("[" : String) ++ "7" ≠ "&&" ∧ ("[" : String) ++ "7" ≠ "[]" :=
  window_rules_never_overlap.1 ⟨1, 1, "[", TokenLeftBracket, none⟩
    ⟨1, 2, "7", TokenNumber, none⟩ ⟨1, 3, "]", TokenRightBracket, none⟩
    (Or.inr ⟨7, by decide⟩)

/-! ## Where the renderings and merges agree with the specification -/

theorem structKeys_eq_go (ks : List String) :
    ∀ s : String, s ≠ "" → structKeys ks s = String.intercalate.go s ", " ks := by
  induction ks with
  | nil => intro s _; rfl
  | cons k ks ih =>
    intro s hs
    have hne : s ++ ", " ++ k ≠ "" := by
      intro e
      have := congrArg String.length e
      simp only [String.length_append] at this
      have h2 : ", ".length = 2 := by decide
      have h0 : "".length = 0 := by decide
      omega
    rw [structKeys, if_pos hs, String.intercalate.go, ih _ hne]

/-- A struct without fields, or whose first visited field name is not empty,
renders as the names joined by a comma and a blank. -/
theorem struct_rendering_of_nonempty_first (fields : List (String × TypeNode))
    (h : ∀ k rest, fields.map Prod.fst = k :: rest → k ≠ "") :
    (TypeNode.TypeNodeStruct fields).String = structReference (fields.map Prod.fst) := by
  simp only [TypeNode.String, structReference]
  cases hk : fields.map Prod.fst with
  | nil => rfl
  | cons k ks =>
    have hne := h k ks hk
    rw [structKeys, if_neg (by simp), String.intercalate]
    have he : ("" : String) ++ k = k := by
      apply String.ext
      simp [String.data_append]
    rw [he, structKeys_eq_go ks k hne]

/-- For an accepted unit, `scan` records the column of the token's start plus
the number of characters of the token. -/
theorem scan_column_after_start (code : Int) (text : String) (line column : Int)
    (hid : convertId code ≠ TokenInvalid) :
    scan [unitStartingAt code text line column]
      = .returned (some [{ Line := line, Column := column + (text.length : Int), Text := text,
                           Id := convertId code }], none) := by
  have h := scanLoop_mapped [unitStartingAt code text line column] []
    (by intro u hu; simp only [List.mem_singleton] at hu; rw [hu]; exact hid)
  simpa [scan, unitStartingAt] using h

theorem headStep_windows {t0 : Token} {rest : List Token} {t : Token} {k : Nat}
    (h : headStep t0 rest = .returned (t, k)) :
    t = t0 ∨ (∃ t1 ∈ rest, rule2 t0 t1 = some t) ∨
      (∃ t1 ∈ rest, ∃ t2 ∈ rest, rule3 t0 t1 t2 = .returned (some t)) := by
  match rest, h with
  | [], h =>
    simp only [headStep, Outcome.returned.injEq, Prod.mk.injEq] at h
    exact Or.inl h.1.symm
  | [t1], h =>
    simp only [headStep] at h
    cases h2 : rule2 t0 t1 with
    | none =>
      rw [h2] at h
      simp only [Outcome.returned.injEq, Prod.mk.injEq] at h
      exact Or.inl h.1.symm
    | some u =>
      rw [h2] at h
      simp only [Outcome.returned.injEq, Prod.mk.injEq] at h
      exact Or.inr (Or.inl ⟨t1, List.mem_cons_self _ _, by rw [h2, h.1]⟩)
  | t1 :: t2 :: r, h =>
    simp only [headStep] at h
    cases h3 : rule3 t0 t1 t2 with
    | returned o =>
      rw [h3] at h
      simp only [Outcome.bind_returned] at h
      cases o with
      | some u =>
        simp only [Outcome.returned.injEq, Prod.mk.injEq] at h
        exact Or.inr (Or.inr ⟨t1, List.mem_cons_self _ _, t2,
          List.mem_cons_of_mem _ (List.mem_cons_self _ _), by rw [← h.1]; exact h3⟩)
      | none =>
        simp only at h
        cases h2 : rule2 t0 t1 with
        | none =>
          rw [h2] at h
          simp only [Outcome.returned.injEq, Prod.mk.injEq] at h
          exact Or.inl h.1.symm
        | some u =>
          rw [h2] at h
          simp only [Outcome.returned.injEq, Prod.mk.injEq] at h
          exact Or.inr (Or.inl ⟨t1, List.mem_cons_self _ _, by rw [h2, h.1]⟩)
    | panicked v => rw [h3] at h; simp at h
    | outOfFuel => rw [h3] at h; simp at h

/-- Every token pushed is an input token, or the merge of two input tokens, or
the merge of three input tokens. -/
theorem mergeFrom_origin_windows :
    ∀ (n : Nat) (ts out : List Token), ts.length ≤ n → mergeFrom ts = .returned out →
      ∀ t ∈ out, t ∈ ts ∨ (∃ a ∈ ts, ∃ b ∈ ts, rule2 a b = some t) ∨
        (∃ a ∈ ts, ∃ b ∈ ts, ∃ c ∈ ts, rule3 a b c = .returned (some t)) := by
  intro n
  induction n with
  | zero =>
    intro ts out hn h t ht
    have : ts = [] := List.length_eq_zero.mp (by omega)
    rw [this, mergeFrom_nil] at h
    simp only [Outcome.returned.injEq] at h
    rw [← h] at ht
    simp at ht
  | succ n ih =>
    intro ts out hn h t ht
    match ts, hn, h with
    | [], _, h =>
      rw [mergeFrom_nil] at h
      simp only [Outcome.returned.injEq] at h
      rw [← h] at ht
      simp at ht
    | t0 :: rest, hn, h =>
      obtain ⟨u, k, out2, hs, hm, e⟩ := mergeFrom_cons_returned h
      rw [e] at ht
      have hsub : ∀ x, x ∈ rest → x ∈ t0 :: rest := fun x hx => List.mem_cons_of_mem _ hx
      rcases List.mem_cons.mp ht with hu | hin
      · rw [hu]
        rcases headStep_windows hs with h1 | ⟨t1, m1, h2⟩ | ⟨t1, m1, t2, m2, h3⟩
        · left; rw [h1]; exact List.mem_cons_self _ _
        · exact Or.inr (Or.inl ⟨t0, List.mem_cons_self _ _, t1, hsub _ m1, h2⟩)
        · exact Or.inr (Or.inr ⟨t0, List.mem_cons_self _ _, t1, hsub _ m1, t2, hsub _ m2, h3⟩)
      · have hlen : (rest.drop (k - 1)).length ≤ n := by
          simp only [List.length_drop, List.length_cons] at hn ⊢
          omega
        have hd : ∀ x, x ∈ rest.drop (k - 1) → x ∈ t0 :: rest :=
          fun x hx => hsub x (List.mem_of_mem_drop hx)
        rcases ih _ _ hlen hm t hin with hmem | ⟨a, ma, b, mb, h2⟩ | ⟨a, ma, b, mb, c, mc, h3⟩
        · exact Or.inl (hd _ hmem)
        · exact Or.inr (Or.inl ⟨a, hd _ ma, b, hd _ mb, h2⟩)
        · exact Or.inr (Or.inr ⟨a, hd _ ma, b, hd _ mb, c, hd _ mc, h3⟩)

/-- On three atomic texts, a text that the pattern matches is exactly a `[`,
digits and a `]`. -/
theorem exact_of_atomic_window {a b c : String} (ha : Atomic a.data) (hb : Atomic b.data)
    (hc : Atomic c.data) (h : ArrayText (a ++ b ++ c).data) :
    isExactArrayText (a ++ b ++ c) = true := by
  obtain ⟨d, r, hne, hd, hx⟩ := h
  simp only [String.data_append, List.append_assoc] at hx
  match d, hne, hd, hx with
  | c0 :: d2, hne, hd, hx =>
    have hc0 : c0.isDigit = true := hd c0 (List.mem_cons_self _ _)
    obtain ⟨ha1, hbc⟩ := @atomic_head_of_fires3 a _ c0 (d2 ++ ']' :: r) ha hx
    have hbc2 : b.data ++ c.data = (c0 :: d2) ++ ']' :: r := by simpa using hbc
    have hbr : ']' ∉ b.data := by
      intro hmem
      have hb1 := (hb.2 ']' hmem (Or.inr (Or.inl rfl))).1
      rw [hb1] at hbc2
      simp only [List.cons_append, List.nil_append, List.cons.injEq] at hbc2
      rw [← hbc2.1] at hc0
      exact absurd hc0 (by decide)
    have hclose : ∀ x : List Char, c.data = x ++ ']' :: r → x = [] ∧ r = [] := by
      intro x hcx
      have hmem : ']' ∈ c.data := by rw [hcx]; simp
      have hc1 := (hc.2 ']' hmem (Or.inr (Or.inl rfl))).1
      rw [hc1] at hcx
      cases x with
      | nil => simp at hcx; exact ⟨rfl, hcx⟩
      | cons y ys =>
        have := congrArg List.length hcx
        simp at this
    have hdata : (a ++ b ++ c).data = '[' :: ((c0 :: d2) ++ [']']) := by
      simp only [String.data_append, List.append_assoc, ha1]
      rcases List.append_eq_append_iff.mp hbc2 with ⟨x, h1, h2⟩ | ⟨x, h1, h2⟩
      · obtain ⟨hx0, hr0⟩ := hclose x h2
        rw [hx0, List.append_nil] at h1
        rw [hx0, hr0] at h2
        simp [h1, h2]
      · cases x with
        | nil =>
          simp only [List.append_nil, List.nil_append] at h1 h2
          obtain ⟨_, hr0⟩ := hclose [] (by simpa using h2.symm)
          rw [hr0] at h2
          simp [h1, ← h2]
        | cons y ys =>
          simp only [List.cons_append, List.cons.injEq] at h2
          exfalso
          apply hbr
          rw [h1, ← h2.1]
          simp
    have hall : (c0 :: d2).all Char.isDigit = true := List.all_eq_true.mpr hd
    simp only [isExactArrayText, hdata, List.dropLast_concat, List.getLast?_concat, hall]
    simp

/-- C14. On every token sequence that `peepholer` receives, the output of the
raw scan over units that carry the texts the tokenizer yields, every token it
synthesizes with kind `TokenTypeArray` has a text that is exactly a `[`, one or
more decimal digits and a `]`, with nothing before or after. (The raw scan
emits no `TokenTypeArray` token, so every such token of the output of `Scan` is
synthesized by `peepholer`.) -/
theorem Scan_array_text_exact (sx : List RawUnit) (out : List Token)
    (hok : ∀ u ∈ sx, unitTextOk u = true)
    (h : Scan sx = .returned (some out, none)) (t : Token) (ht : t ∈ out)
    (hid : t.Id = TokenTypeArray) : isExactArrayText t.Text = true := by
  obtain ⟨raw, hscan, hm, hval⟩ := Scan_returned h
  have hatom : ∀ r ∈ raw, Atomic r.Text.data := by
    intro r hr
    rcases scanLoop_units sx [] _ hscan with ⟨e, he⟩ | ⟨more, hmore, hall⟩
    · simp at he
    · simp only [List.nil_append, Prod.mk.injEq, Option.some.injEq, and_true] at hmore
      rw [hmore] at hr
      obtain ⟨u, hu, huid, hutext, _⟩ := hall r hr
      rw [hutext]
      exact atomic_of_isPrimitiveText (isPrimitiveText_of_unitTextOk (hok u hu) huid)
  rcases mergeFrom_origin_windows raw.length raw out (Nat.le_refl _) hm t ht with
    hin | ⟨a, _, b, _, h2⟩ | ⟨a, ma, b, mb, c, mc, h3⟩
  · exact absurd hid (hval t hin).2
  · rcases rule2_cases a b with ⟨hn, _⟩ | ⟨u, hu, hsy, _⟩
    · rw [hn] at h2; simp at h2
    · rw [hu] at h2
      simp only [Option.some.injEq] at h2
      rw [h2] at hsy
      rcases hsy with ⟨_, hi, _⟩ | ⟨_, _, n, hv, _⟩ | ⟨_, hi, _⟩ | ⟨_, hi, _⟩ | ⟨_, hi, _⟩
      · rw [hid] at hi; exact absurd hi (by decide)
      · exfalso
        simp only [rule2] at hu
        split_ifs at hu <;> simp only [Option.some.injEq] at hu <;>
          (rw [← h2, ← hu] at hv; simp at hv)
      · rw [hid] at hi; exact absurd hi (by decide)
      · rw [hid] at hi; exact absurd hi (by decide)
      · rw [hid] at hi; exact absurd hi (by decide)
  · rcases rule3_returned h3 with ⟨ho, _⟩ | ⟨u, ho, hsy, _, _, htext⟩
    · simp at ho
    · simp only [Option.some.injEq] at ho
      rw [← ho] at hsy htext
      rcases hsy with ⟨_, hi, _⟩ | ⟨harr, _, _⟩ | ⟨_, hi, _⟩ | ⟨_, hi, _⟩ | ⟨_, hi, _⟩
      · rw [hid] at hi; exact absurd hi (by decide)
      · rw [htext] at harr ⊢
        exact exact_of_atomic_window (hatom a ma) (hatom b mb) (hatom c mc) harr
      · rw [hid] at hi; exact absurd hi (by decide)
      · rw [hid] at hi; exact absurd hi (by decide)
      · rw [hid] at hi; exact absurd hi (by decide)

theorem Scan_array_text_exact_witness : isExactArrayText "[42]" = true :=
  Scan_array_text_exact
    [unitStartingAt 91 "[" 1 1, unitStartingAt (-3) "42" 1 2, unitStartingAt 93 "]" 1 4]
    [⟨1, 2, "[42]", TokenTypeArray, some 42⟩] (by decide) (by decide)
    ⟨1, 2, "[42]", TokenTypeArray, some 42⟩ (by decide) rfl

/-! ## Positions and windows -/

/-- The token an iteration pushes has the text of the tokens it consumes. -/
theorem headStep_window_text {t0 : Token} {rest : List Token} {t : Token} {k : Nat}
    (h : headStep t0 rest = .returned (t, k)) :
    t.Text = concatText (t0 :: rest.take (k - 1)) := by
  have he : ∀ x : String, x ++ "" = x := fun x => by
    apply String.ext; simp [String.data_append]
  match rest, h with
  | [], h =>
    simp only [headStep, Outcome.returned.injEq, Prod.mk.injEq] at h
    simp [← h.1, ← h.2, concatText, he]
  | [t1], h =>
    simp only [headStep] at h
    rcases rule2_cases t0 t1 with ⟨h2, _⟩ | ⟨u, h2, _, _, _, hx⟩
    · rw [h2] at h
      simp only [Outcome.returned.injEq, Prod.mk.injEq] at h
      simp [← h.1, ← h.2, concatText, he]
    · rw [h2] at h
      simp only [Outcome.returned.injEq, Prod.mk.injEq] at h
      simp [← h.1, ← h.2, concatText, hx, he]
  | t1 :: t2 :: r, h =>
    simp only [headStep] at h
    cases h3 : rule3 t0 t1 t2 with
    | returned o =>
      rw [h3] at h
      simp only [Outcome.bind_returned] at h
      rcases rule3_returned h3 with ⟨ho, _⟩ | ⟨u, ho, _, _, _, hx⟩
      · rw [ho] at h
        simp only at h
        rcases rule2_cases t0 t1 with ⟨h2, _⟩ | ⟨u, h2, _, _, _, hx⟩
        · rw [h2] at h
          simp only [Outcome.returned.injEq, Prod.mk.injEq] at h
          simp [← h.1, ← h.2, concatText, he]
        · rw [h2] at h
          simp only [Outcome.returned.injEq, Prod.mk.injEq] at h
          simp [← h.1, ← h.2, concatText, hx, he]
      · rw [ho] at h
        simp only [Outcome.returned.injEq, Prod.mk.injEq] at h
        simp [← h.1, ← h.2, concatText, hx, he, String.append_assoc]
    | panicked v => rw [h3] at h; simp at h
    | outOfFuel => rw [h3] at h; simp at h

/-- From any cursor, the tokens pushed by the rest of the loop come with the
windows of the iterations that push them. -/
theorem loopWindows_of_mergeFrom (ts : List Token) :
    ∀ (n i : Nat) (out : List Token), ts.length - i ≤ n →
      mergeFrom (ts.drop i) = .returned out →
      ∃ ws : List (List Token), LoopWindows ts i ws out ∧ ws.flatten = ts.drop i ∧
        List.Forall₂ (fun w o => WindowOf w o ∧ o.Text = concatText w) ws out := by
  intro n
  induction n with
  | zero =>
    intro i out hn h
    have hi : ts.length ≤ i := by omega
    rw [List.drop_eq_nil_of_le hi, mergeFrom_nil] at h
    simp only [Outcome.returned.injEq] at h
    rw [← h, List.drop_eq_nil_of_le hi]
    exact ⟨[], LoopWindows.done (by omega), rfl, List.Forall₂.nil⟩
  | succ n ih =>
    intro i out hn h
    by_cases hi : i < ts.length
    · have hle : (i : Int) ≤ (ts.length : Int) - 1 := by omega
      have hd : ts.drop i = ts[i] :: ts.drop (i + 1) := List.drop_eq_getElem_cons hi
      rw [hd] at h
      obtain ⟨u, k, out2, hs, hm, e⟩ := mergeFrom_cons_returned h
      obtain ⟨hk, hkle⟩ := headStep_consumed hs
      simp only [List.length_drop] at hkle
      have hdd : List.drop (k - 1) (List.drop (i + 1) ts) = List.drop (i + k) ts := by
        rw [List.drop_drop]; congr 1; omega
      rw [hdd] at hm
      obtain ⟨ws, hloop, hflat, hall⟩ := ih (i + k) out2 (by omega) hm
      have hit : ∀ result : List Token,
          peepholerIteration ts ((ts.length : Int) - 1) i result
            = .returned (i + k, result ++ [u]) := by
        intro result
        rw [peepholerIteration_eq ts i result _ _ hd, hs]
        rfl
      have hwin : (ts.drop i).take (i + k - i) = ts[i] :: (ts.drop (i + 1)).take (k - 1) := by
        have hk1 : i + k - i = (k - 1) + 1 := by omega
        rw [hd, hk1, List.take_succ_cons]
      have hpos : u.Line = ts[i].Line ∧ u.Column = ts[i].Column := by
        rcases headStep_inv hs with ⟨_, hu, _⟩ | ⟨_, _, hl, hc⟩
        · rw [hu]; exact ⟨rfl, rfl⟩
        · exact ⟨hl, hc⟩
      refine ⟨((ts.drop i).take (i + k - i)) :: ws, ?_, ?_, ?_⟩
      · rw [e]
        exact LoopWindows.step hle hit hloop
      · rw [List.flatten_cons, hflat]
        have hk2 : i + k - i = k := by omega
        have h3 : ts.drop (i + k) = (ts.drop i).drop k := by rw [List.drop_drop]
        rw [hk2, h3, List.take_append_drop, hd]
      · rw [e]
        refine List.Forall₂.cons ⟨⟨?_, ts[i], _, hwin, hpos.1, hpos.2⟩, ?_⟩ hall
        · rw [hwin]
          simp only [List.length_cons, List.length_take, List.length_drop]
          omega
        · rw [hwin]
          exact headStep_window_text hs
    · have hi2 : ts.length ≤ i := by omega
      rw [List.drop_eq_nil_of_le hi2, mergeFrom_nil] at h
      simp only [Outcome.returned.injEq] at h
      rw [← h, List.drop_eq_nil_of_le hi2]
      exact ⟨[], LoopWindows.done (by omega), rfl, List.Forall₂.nil⟩

/-- C6. When `peepholer` succeeds, its input splits, in order, into the
contiguous windows that the iterations of the loop consume, one window per
output token: each window has one, two or three tokens, the output token is the
one the iteration at that window pushes, its text is the concatenated text of
the window, and it carries the line and column of the first token of the
window. -/
theorem peepholer_position_preservation (ts out : List Token)
    (h : peepholer ts = .returned (some out, none)) :
    ∃ windows : List (List Token),
      LoopWindows ts 0 windows out ∧ windows.flatten = ts ∧
        List.Forall₂ (fun w o => WindowOf w o ∧ o.Text = concatText w) windows out := by
  have hm : mergeFrom (ts.drop 0) = .returned out := by
    simpa using peepholer_returned h
  simpa using loopWindows_of_mergeFrom ts ts.length 0 out (by omega) hm

theorem peepholer_position_preservation_witness :
    ∃ windows : List (List Token),
      LoopWindows [⟨1, 1, "a", TokenSymbol, none⟩, ⟨1, 2, "|", TokenBitwiseOr, none⟩,
          ⟨1, 3, "|", TokenBitwiseOr, none⟩] 0 windows
          [⟨1, 1, "a", TokenSymbol, none⟩, ⟨1, 2, "||", TokenLogicalOr, none⟩] ∧
        windows.flatten
          = [⟨1, 1, "a", TokenSymbol, none⟩, ⟨1, 2, "|", TokenBitwiseOr, none⟩,
             ⟨1, 3, "|", TokenBitwiseOr, none⟩] ∧
        List.Forall₂ (fun w o => WindowOf w o ∧ o.Text = concatText w) windows
          [⟨1, 1, "a", TokenSymbol, none⟩, ⟨1, 2, "||", TokenLogicalOr, none⟩] :=
  peepholer_position_preservation
    [⟨1, 1, "a", TokenSymbol, none⟩, ⟨1, 2, "|", TokenBitwiseOr, none⟩,
     ⟨1, 3, "|", TokenBitwiseOr, none⟩]
    [⟨1, 1, "a", TokenSymbol, none⟩, ⟨1, 2, "||", TokenLogicalOr, none⟩] (by decide)

end Dsl
